import Mathlib

/-!
# Verification of the Reed-Muller evaluation-code core

Shallow embedding of `src/sage/coding/ReedMullerCode.py`: construction of
`QAryReedMullerCode` / `BinaryReedMullerCode`, the vector and polynomial
encoders, and the recursive multivariate interpolation routine
`multivariatePolynomialInterpolation` (the `unencode_nocheck` decoder).

The base field `GF(q)` is modelled as `ZMod q` for a prime `q`, with the
fixed element enumeration `0, 1, ..., q-1` (the order of `GF(q).list()` on
prime fields).  Multivariate polynomials in the variables `x0, ..., x(m-1)`
are modelled in two ways:

* messages handed to `encode` are finitely supported coefficient functions
  (grids `(Fin m → Fin D) → ZMod q` extended by zero to all of `Fin m → ℕ`);
* the value built by the interpolation recursion is an element of the
  iterated ring `F[x0][x1]...[x(m-1)]`, represented by the nested
  coefficient-list type `NPoly q m`; `toCoeff` maps it back to a coefficient
  function, which is the notion of coefficient-wise equality used throughout.
-/

/-- The fixed enumeration of the field elements: `GF(q).list()` for a prime
field lists `0, 1, ..., q-1` in this order.  (The finite field itself is an
external collaborator of the module under verification; the module only uses
its element list and arithmetic.) -/
def fieldList (q : ℕ) : List (ZMod q) :=
  (List.range q).map (fun i => (Nat.cast i : ZMod q))

/-! ## Univariate polynomials as dense coefficient lists

`uniPolyRing.lagrange_polynomial(points).coefficients(sparse=False)` in the
source produces the dense coefficient list (degree 0 first) of the Lagrange
interpolation polynomial through the given points.  The Sage implementation of
`lagrange_polynomial` is not part of the sources under verification, so it is
modelled from the spec below (`lagrangeCoeffs`). -/

/-- Addition of dense coefficient lists (the shorter list is padded). -/
def uAdd {q : ℕ} : List (ZMod q) → List (ZMod q) → List (ZMod q)
  | [], l => l
  | l, [] => l
  | a :: l, b :: l2 => (a + b) :: uAdd l l2

/-- Multiplication of a dense coefficient list by a scalar. -/
def uSmul {q : ℕ} (c : ZMod q) (l : List (ZMod q)) : List (ZMod q) :=
  l.map (fun a => c * a)

/-- Multiplication of a dense coefficient list by the linear factor `X - a`. -/
def uMulLin {q : ℕ} (a : ZMod q) (l : List (ZMod q)) : List (ZMod q) :=
  uAdd (uSmul (-a) l) ((0 : ZMod q) :: l)

/-- The monic product `∏ (X - a)` over a list of nodes `a`. -/
def nodal {q : ℕ} (xs : List (ZMod q)) : List (ZMod q) :=
  xs.foldr (fun a acc => uMulLin a acc) [(1 : ZMod q)]

/-- The `i`-th Lagrange basis polynomial for the node list `xs`:
`(∏ j ≠ i, (xs[i] - xs[j]))⁻¹ · ∏ j ≠ i, (X - xs[j])`. -/
def lagBasis {q : ℕ} (xs : List (ZMod q)) (i : ℕ) : List (ZMod q) :=
  uSmul (((xs.eraseIdx i).map (fun b => xs.getD i 0 - b)).prod)⁻¹
    (nodal (xs.eraseIdx i))

/-- Modelled from the spec: `uniPolyRing.lagrange_polynomial` (Sage library
code, not among the sources) computes "that univariate polynomial via Lagrange
interpolation through those q points"; this returns its dense coefficient
list `∑ i, y_i · lagBasis xs i` (degree 0 first). -/
def lagrangeCoeffs {q : ℕ} (pts : List (ZMod q × ZMod q)) : List (ZMod q) :=
  let xs := pts.map Prod.fst
  (List.range pts.length).foldr
    (fun i acc => uAdd (uSmul (pts.getD i (0, 0)).2 (lagBasis xs i)) acc) []

/-- Horner evaluation of a dense coefficient list. -/
def evalU {q : ℕ} (l : List (ZMod q)) (x : ZMod q) : ZMod q :=
  l.foldr (fun c acc => c + x * acc) 0

/-! ## The evaluation domain

Both encoders and the decoder enumerate the domain `F^m` as
`Tuples(baseField.list(), numberOfVariable)`.  Sage's `Tuples` is library
code outside the sources under verification; its enumeration order is pinned
by the doctests of `encode` and `generator_matrix` in the source (coordinate 0
varies fastest, the last coordinate slowest), which is the order modelled
here: the tuple list for `m+1` coordinates cycles the whole `m`-coordinate
list for each value of the new last coordinate. -/
def tuples {α : Type} (S : List α) : (m : ℕ) → List (Fin m → α)
  | 0 => [Fin.elim0]
  | m + 1 => S.flatMap (fun x => (tuples S m).map (fun t => Fin.snoc t x))

/-! ## The iterated polynomial ring

The interpolation recursion builds its result in the ring
`_R = F[x0, ..., x(m-1)]` using only the operations
`poly + z * (recursive result)` with `z = x(m-1)^k`; viewing `_R` as the
iterated univariate ring `F[x0][x1]...[x(m-1)]`, the value produced at
recursion level `nv` is exactly the coefficient list (in the outermost
variable `x(nv-1)`) of its recursive sub-results.  `NPoly q nv` is that
iterated-ring representation. -/
def NPoly (q : ℕ) : ℕ → Type
  | 0 => ZMod q
  | nv + 1 => List (NPoly q nv)

theorem NPoly_zero (q : ℕ) : NPoly q 0 = ZMod q := rfl

theorem NPoly_succ (q : ℕ) (nv : ℕ) : NPoly q (nv + 1) = List (NPoly q nv) := rfl

/-- The constant polynomial, injected through every level of the iterated
ring (a field element coerces into `_R` as a constant). -/
def constNP (q : ℕ) : (nv : ℕ) → ZMod q → NPoly q nv
  | 0, c => c
  | nv + 1, c => [constNP q nv c]

instance instDecidableEqNPoly (q : ℕ) : (nv : ℕ) → DecidableEq (NPoly q nv)
  | 0 => inferInstanceAs (DecidableEq (ZMod q))
  | nv + 1 =>
    have : DecidableEq (NPoly q nv) := instDecidableEqNPoly q nv
    inferInstanceAs (DecidableEq (List (NPoly q nv)))

/-- The coefficient of the monomial `x0^(e 0) * ... * x(nv-1)^(e (nv-1))` in
an element of the iterated ring: coefficient-wise view of `NPoly`. -/
def toCoeff (q : ℕ) : (nv : ℕ) → NPoly q nv → (Fin nv → ℕ) → ZMod q
  | 0, c, _ => c
  | nv + 1, L, e =>
    toCoeff q nv ((L : List (NPoly q nv)).getD (e (Fin.last nv)) (constNP q nv 0))
      (fun j => e j.castSucc)

/-! ## `multivariatePolynomialInterpolation` (lines 83-104 of the source)

The helpers below name the intermediate values of the recursive case so that
the in-bounds and shape properties of every list access can be stated:

* `interpPoints q nv ev k` is `[(xcordinate[i], evaluation[k+i*nq]) for i in range(q)]`
  (with `nq = q^(nv-1)`, called with `numberOfVariable = nv ≥ 1`);
* `interpPolyVector q nv order ev k` is `polyVector` after the zero padding
  `polyVector + [0 for i in range(d-len(polyVector))]` (`d = min(order+1, q)`);
* `interpSubTable q nv order ev k` is `[evaluation2[i][k] for i in range(nq)]`,
  the table handed to the recursive call for coefficient `k`. -/

def interpPoints (q nv : ℕ) (ev : List (ZMod q)) (k : ℕ) :
    List (ZMod q × ZMod q) :=
  (List.range q).map
    (fun i => ((fieldList q).getD i 0, ev.getD (k + i * q ^ (nv - 1)) 0))

def interpPolyVector (q nv order : ℕ) (ev : List (ZMod q)) (k : ℕ) :
    List (ZMod q) :=
  let d := min (order + 1) q
  let polyVector := lagrangeCoeffs (interpPoints q nv ev k)
  if polyVector.length < d then
    polyVector ++ List.replicate (d - polyVector.length) (0 : ZMod q)
  else polyVector

def interpSubTable (q nv order : ℕ) (ev : List (ZMod q)) (k : ℕ) :
    List (ZMod q) :=
  (List.range (q ^ (nv - 1))).map
    (fun i => (interpPolyVector q nv order ev i).getD k 0)

/-- The decoder `multivariatePolynomialInterpolation(evaluation, numberOfVariable, order,
q, finiteField, _R)`: if `numberOfVariable == 0 or order == 0` return
`evaluation[0]`; otherwise Lagrange-interpolate each of the `nq` columns,
pad the coefficient lists to length `d = min(order+1, q)`, and return
`∑ k < d, x(nv-1)^k * (recursive interpolation of the k-th coefficients)` —
which, as an element of `F[x0]...[x(nv-1)]`, is the length-`d` coefficient
list of the recursive results. -/
def multivariatePolynomialInterpolation (q : ℕ) :
    (nv : ℕ) → (order : ℕ) → List (ZMod q) → NPoly q nv
  | 0, _, ev => ev.getD 0 0
  | nv + 1, 0, ev => constNP q (nv + 1) (ev.getD 0 0)
  | nv + 1, order + 1, ev =>
    ((List.range (min (order + 1 + 1) q)).map
      (fun k =>
        multivariatePolynomialInterpolation q nv (order + 1 - k)
          (interpSubTable q (nv + 1) (order + 1) ev k)) : List (NPoly q nv))

/-! ## Message polynomials and `ReedMullerPolynomialEncoder.encode`

A message polynomial is an element of some polynomial ring
`GF(q')[y0, ..., y(m'-1)]`, given by its coefficients; any concrete element
has all exponents below some bound `D`, so it is recorded as a coefficient
grid `(Fin m' → Fin D) → ZMod q'`.  `fromGrid` is its coefficient function on
all exponent vectors. -/

structure PolyIn where
  fieldSize : ℕ
  numVars : ℕ
  bound : ℕ
  coeffs : (Fin numVars → Fin bound) → ZMod fieldSize

/-- The coefficient function of a grid polynomial (zero outside the grid). -/
def fromGrid {q m D : ℕ} (c : (Fin m → Fin D) → ZMod q) : (Fin m → ℕ) → ZMod q :=
  fun e => if h : ∀ j, e j < D then c (fun j => ⟨e j, h j⟩) else 0

/-- Evaluation at a point of the polynomial with coefficient function `c`,
summing over the exponent box `[0, B)^m` (which covers the support of every
polynomial handled below). -/
def evalFun (q m B : ℕ) (c : (Fin m → ℕ) → ZMod q) (pt : Fin m → ZMod q) :
    ZMod q :=
  ∑ e : Fin m → Fin B, c (fun j => e j) * ∏ j, pt j ^ ((e j : ℕ))

/-- Models `p.degree()`: the total degree of the polynomial, `-1` for the zero
polynomial (Sage's convention). -/
def pDegree (p : PolyIn) : ℤ :=
  match (Finset.univ.filter (fun e => p.coeffs e ≠ 0)).image
      (fun e : Fin p.numVars → Fin p.bound => ∑ j, (e j : ℕ)) |>.max with
  | none => -1
  | some d => d

inductive EncErr where
  | notInMessageSpace : EncErr
  | degreeExceeded : EncErr
deriving DecidableEq

instance instDecidableEqExcept {e a : Type} [DecidableEq e] [DecidableEq a] :
    DecidableEq (Except e a) := fun x y =>
  match x, y with
  | .error e1, .error e2 =>
    if h : e1 = e2 then isTrue (by rw [h]) else
      isFalse (fun hc => h (by injection hc))
  | .error _, .ok _ => isFalse (fun hc => Except.noConfusion hc)
  | .ok _, .error _ => isFalse (fun hc => Except.noConfusion hc)
  | .ok v1, .ok v2 =>
    if h : v1 = v2 then isTrue (by rw [h]) else
      isFalse (fun hc => h (by injection hc))

/-- Models `ReedMullerPolynomialEncoder.encode(p)` for the code with parameters
`(q, r, m)` and the default polynomial ring: raise if `p not in M` (its
coefficient field or number of variables differs from the message space
`M = GF(q)[x0..x(m-1)]`), raise if `p.degree() > order`, else return
`vector(F, [p(x) for x in baseFieldTuple])`. -/
def encode (q r m : ℕ) (p : PolyIn) : Except EncErr (List (ZMod q)) :=
  if hq : p.fieldSize = q then
    if hm : p.numVars = m then
      if (r : ℤ) < pDegree p then .error .degreeExceeded
      else
        .ok ((tuples (fieldList q) m).map
          (evalFun q m p.bound (fun e => hq ▸ fromGrid p.coeffs (fun j => e (Fin.cast hm j)))))
    else .error .notInMessageSpace
  else .error .notInMessageSpace

/-- The codeword of the coefficient function `c`: `p` evaluated at every
point of the fixed domain enumeration (support box `[0, q)^m`). -/
def encList (q m : ℕ) (c : (Fin m → ℕ) → ZMod q) : List (ZMod q) :=
  (tuples (fieldList q) m).map (evalFun q m q c)

/-! ## Code construction (`binomialSum`, `QAryReedMullerCode.__init__`,
`BinaryReedMullerCode.__init__`)

The constructors take Sage objects for `order` and `numberOfVariable` and
check `isinstance(-, Integer)`; a value that is an `Integer` is modelled as
`PyNum.int n`, anything else (e.g. the float `1.1` of the doctests) as
`PyNum.other`. -/

inductive PyNum where
  | int : ℤ → PyNum
  | other : PyNum

inductive RMErr where
  | notIntegerOrder : RMErr
  | notIntegerVars : RMErr
  | orderTooLarge : RMErr
deriving DecidableEq

/-- Models `binomialSum(n, k)`: `s=1; nCi=1; for i in range(k): nCi=((n-i)*nCi)/(i+1); s=nCi+s`.
The arithmetic is Python 2 integer arithmetic, where `/` is floor division
(`Int.fdiv`). -/
def binomialSum (n k : ℕ) : ℤ :=
  ((List.range k).foldl
    (fun (p : ℤ × ℤ) (i : ℕ) =>
      let nCi := (((n : ℤ) - (i : ℤ)) * p.2).fdiv ((i : ℤ) + 1)
      (nCi + p.1, nCi))
    (1, 1)).1

/-- The input sanitization of `QAryReedMullerCode.__init__` (the base field,
of size `q`, is assumed well-typed): `order` and `numberOfVariable` must be
`Integer`s and `order < q` must hold; on success the pair of validated
parameters is returned. -/
def qaryCheck (q : ℕ) (order numberOfVariable : PyNum) : Except RMErr (ℤ × ℤ) :=
  match order with
  | .other => .error .notIntegerOrder
  | .int r =>
    match numberOfVariable with
    | .other => .error .notIntegerVars
    | .int m => if (q : ℤ) ≤ r then .error .orderTooLarge else .ok (r, m)

/-- The input sanitization of `BinaryReedMullerCode.__init__`:
`order` and `numberOfVariable` must be `Integer`s with
`numberOfVariable ≥ order`. -/
def binaryCheck (order numberOfVariable : PyNum) : Except RMErr (ℤ × ℤ) :=
  match order with
  | .other => .error .notIntegerOrder
  | .int r =>
    match numberOfVariable with
    | .other => .error .notIntegerVars
    | .int m => if m < r then .error .orderTooLarge else .ok (r, m)

/-- The length stored by both constructors: `q**numberOfVariable`. -/
def rmLength (q m : ℕ) : ℕ := q ^ m

/-- The dimension stored by the constructors: `binomial(numberOfVariable +
order, order)` for `QAryReedMullerCode`, `binomialSum(numberOfVariable,
order)` for `BinaryReedMullerCode` (which has `q = 2`). -/
def rmDimension (q r m : ℕ) : ℕ :=
  if q = 2 then (binomialSum m r).toNat else (m + r).choose r

/-! ## The monomial basis of `ReedMullerVectorEncoder`

The source takes `Subsets(range(numberOfVariable)*(q-1), submultiset=True)
[0:code.dimension()]`: the submultisets of the multiset holding each variable
index with multiplicity `q-1`, in an order graded by size, truncated to the
first `dimension()` of them; each submultiset is used through the exponent
vector counting its entries.  Sage's `Subsets` is library code outside the
sources under verification, so the enumeration is modelled from the spec:
"generate all ways to choose a multiset of size 0..r drawn from the m
variable indices, where each index may be chosen at most q-1 times; convert
each multiset to an exponent vector by counting occurrences per index;
enumerate multisets in a fixed combinatorial order (graded order: all size-0
multisets, then size-1, ...; within a size class, lexicographic)". -/

/-- Modelled from the spec: the exponent vectors (as length-`m` lists) with
all entries at most `b` and entry sum exactly `s`, in the lexicographic order
of the sorted index multisets (so the vector with the larger leading exponent
comes first, matching the `generator_matrix` doctest of the source). -/
def boundedVecs (b : ℕ) : (m : ℕ) → (s : ℕ) → List (List ℕ)
  | 0, s => if s = 0 then [[]] else []
  | m + 1, s =>
    ((List.range (b + 1)).reverse).flatMap
      (fun e0 => if e0 ≤ s then (boundedVecs b m (s - e0)).map (fun v => e0 :: v) else [])

/-- Modelled from the spec: all exponent vectors with entries at most `q-1`,
graded by total degree (the submultiset sizes run from `0` to `m*(q-1)`). -/
def gradedExponents (q m : ℕ) : List (List ℕ) :=
  (List.range (m * (q - 1) + 1)).flatMap (fun s => boundedVecs (q - 1) m s)

/-- The monomial basis actually used: the first `dimension()` exponent
vectors of the graded enumeration. -/
def basisExponents (q r m : ℕ) : List (List ℕ) :=
  (gradedExponents q m).take (rmDimension q r m)

/-- Models `reduce(mul, [x[i] for i in exponent], 1)`: the value of the monomial
with exponent vector `e` at the point `x`. -/
def prodPow {q m : ℕ} (x : Fin m → ZMod q) (e : List ℕ) : ZMod q :=
  ∏ j : Fin m, x j ^ e.getD (j : ℕ) 0

/-- The generator matrix built by `ReedMullerVectorEncoder.__init__`: one row
per basis monomial, whose entries are the values of that monomial at the
points of the fixed domain enumeration. -/
def generatorMatrix (q r m : ℕ) : List (List (ZMod q)) :=
  (basisExponents q r m).map
    (fun e => (tuples (fieldList q) m).map (fun x => prodPow x e))

/-! ## Properties of the field enumeration -/

theorem length_fieldList (q : ℕ) : (fieldList q).length = q := by
  simp [fieldList]

theorem getD_fieldList {q : ℕ} {i : ℕ} (h : i < q) :
    (fieldList q).getD i 0 = (i : ZMod q) := by
  rw [fieldList, List.getD_eq_getElem _ _ (by simpa using h)]
  simp

theorem nodup_fieldList (q : ℕ) : (fieldList q).Nodup := by
  rcases q with - | q
  · simp [fieldList]
  · have : NeZero (q + 1) := ⟨q.succ_ne_zero⟩
    refine List.Nodup.map_on ?_ (List.nodup_range _)
    intro x hx y hy hxy
    rw [List.mem_range] at hx hy
    have hv := congrArg ZMod.val hxy
    rwa [ZMod.val_cast_of_lt hx, ZMod.val_cast_of_lt hy] at hv

theorem mem_fieldList {q : ℕ} [NeZero q] (z : ZMod q) : z ∈ fieldList q :=
  List.mem_map.mpr ⟨z.val, List.mem_range.mpr z.val_lt, ZMod.natCast_rightInverse z⟩

/-! ## Semantics of dense coefficient lists

`toPoly` reads a dense coefficient list as a `Polynomial`; it is the bridge
to Mathlib's Lagrange interpolation theory. -/

noncomputable def toPoly {q : ℕ} (l : List (ZMod q)) : Polynomial (ZMod q) :=
  l.foldr (fun c acc => Polynomial.C c + Polynomial.X * acc) 0

theorem toPoly_nil {q : ℕ} : toPoly ([] : List (ZMod q)) = 0 := rfl

theorem toPoly_cons {q : ℕ} (a : ZMod q) (l : List (ZMod q)) :
    toPoly (a :: l) = Polynomial.C a + Polynomial.X * toPoly l := rfl

theorem coeff_toPoly {q : ℕ} : ∀ (l : List (ZMod q)) (k : ℕ),
    (toPoly l).coeff k = l.getD k 0
  | [], k => by simp [toPoly_nil]
  | a :: l, 0 => by simp [toPoly_cons]
  | a :: l, k + 1 => by
    simp [toPoly_cons, Polynomial.coeff_X_mul, coeff_toPoly l k]

theorem eval_toPoly {q : ℕ} : ∀ (l : List (ZMod q)) (x : ZMod q),
    (toPoly l).eval x = evalU l x
  | [], x => by simp [toPoly_nil, evalU]
  | a :: l, x => by
    rw [toPoly_cons, Polynomial.eval_add, Polynomial.eval_C, Polynomial.eval_mul,
      Polynomial.eval_X, eval_toPoly l x]
    rfl

theorem degree_toPoly_lt {q : ℕ} (l : List (ZMod q)) :
    (toPoly l).degree < (l.length : ℕ) := by
  rw [Polynomial.degree_lt_iff_coeff_zero]
  intro k hk
  rw [coeff_toPoly]
  exact List.getD_eq_default _ _ (by exact_mod_cast hk)

theorem toPoly_uAdd {q : ℕ} : ∀ (l1 l2 : List (ZMod q)),
    toPoly (uAdd l1 l2) = toPoly l1 + toPoly l2
  | [], l => by simp [uAdd, toPoly_nil]
  | a :: l, [] => by simp [uAdd, toPoly_nil]
  | a :: l, b :: l2 => by
    simp only [uAdd, toPoly_cons, toPoly_uAdd l l2, map_add]
    ring

theorem toPoly_uSmul {q : ℕ} (c : ZMod q) : ∀ (l : List (ZMod q)),
    toPoly (uSmul c l) = Polynomial.C c * toPoly l
  | [] => by simp [uSmul, toPoly_nil]
  | a :: l => by
    simp only [uSmul, List.map_cons, toPoly_cons, map_mul]
    rw [show (List.map (fun a => c * a) l) = uSmul c l from rfl, toPoly_uSmul c l]
    ring

theorem toPoly_uMulLin {q : ℕ} (a : ZMod q) (l : List (ZMod q)) :
    toPoly (uMulLin a l) = (Polynomial.X - Polynomial.C a) * toPoly l := by
  simp only [uMulLin, toPoly_uAdd, toPoly_uSmul, toPoly_cons, map_neg, map_zero]
  ring

theorem toPoly_nodal {q : ℕ} : ∀ (xs : List (ZMod q)),
    toPoly (nodal xs) = (xs.map (fun a => Polynomial.X - Polynomial.C a)).prod
  | [] => by simp [nodal, toPoly_cons, toPoly_nil]
  | a :: xs => by
    simp only [nodal, List.foldr_cons, List.map_cons, List.prod_cons]
    rw [show (List.foldr (fun a acc => uMulLin a acc) [(1 : ZMod q)] xs) = nodal xs
      from rfl, toPoly_uMulLin, toPoly_nodal xs]

theorem length_uAdd {q : ℕ} : ∀ (l1 l2 : List (ZMod q)),
    (uAdd l1 l2).length = max l1.length l2.length
  | [], l => by simp [uAdd]
  | a :: l, [] => by simp [uAdd]
  | a :: l, b :: l2 => by
    simp [uAdd, length_uAdd l l2, Nat.succ_max_succ]

theorem length_uSmul {q : ℕ} (c : ZMod q) (l : List (ZMod q)) :
    (uSmul c l).length = l.length := by
  simp [uSmul]

theorem length_uMulLin {q : ℕ} (a : ZMod q) (l : List (ZMod q)) :
    (uMulLin a l).length = l.length + 1 := by
  simp [uMulLin, length_uAdd, length_uSmul]

theorem length_nodal {q : ℕ} : ∀ (xs : List (ZMod q)),
    (nodal xs).length = xs.length + 1
  | [] => rfl
  | a :: xs => by
    show (uMulLin a (nodal xs)).length = xs.length + 1 + 1
    rw [length_uMulLin, length_nodal xs]

theorem length_lagBasis {q : ℕ} (xs : List (ZMod q)) (i : ℕ) (hi : i < xs.length) :
    (lagBasis xs i).length = xs.length := by
  rw [lagBasis, length_uSmul, length_nodal, List.length_eraseIdx_of_lt hi]
  omega

theorem length_lagrangeCoeffs_le {q : ℕ} (pts : List (ZMod q × ZMod q)) :
    (lagrangeCoeffs pts).length ≤ pts.length := by
  rw [lagrangeCoeffs]
  have main : ∀ is : List ℕ, (∀ i ∈ is, i < pts.length) →
      (is.foldr (fun i acc =>
        uAdd (uSmul (pts.getD i (0, 0)).2 (lagBasis (pts.map Prod.fst) i)) acc)
        []).length ≤ pts.length := by
    intro is his
    induction is with
    | nil => simp
    | cons i is ih =>
      simp only [List.foldr_cons, length_uAdd, length_uSmul, max_le_iff]
      refine ⟨?_, ih (fun j hj => his j (List.mem_cons_of_mem _ hj))⟩
      rw [length_lagBasis _ _ (by simpa using his i (List.mem_cons_self i is))]
      simp
  exact main _ (fun i hi => List.mem_range.mp hi)

theorem toPoly_lagrangeCoeffs {q : ℕ} (pts : List (ZMod q × ZMod q)) :
    toPoly (lagrangeCoeffs pts) =
      ((List.range pts.length).map
        (fun i => Polynomial.C (pts.getD i (0, 0)).2 *
          toPoly (lagBasis (pts.map Prod.fst) i))).sum := by
  rw [lagrangeCoeffs]
  induction List.range pts.length with
  | nil => simp [toPoly_nil]
  | cons i is ih =>
    simp only [List.foldr_cons, List.map_cons, List.sum_cons, toPoly_uAdd, toPoly_uSmul, ih]

/-- The Lagrange basis polynomial evaluates to `1` at its own node
(`Nodup` nodes, prime field so that nonzero elements invert). -/
theorem eval_lagBasis_self {q : ℕ} [Fact (Nat.Prime q)] (xs : List (ZMod q))
    (hnd : xs.Nodup) {i : ℕ} (hi : i < xs.length) :
    Polynomial.eval (xs.getD i 0) (toPoly (lagBasis xs i)) = 1 := by
  have hne : ∀ b ∈ xs.eraseIdx i, xs.getD i 0 - b ≠ 0 := by
    intro b hb
    obtain ⟨j, hj, hji, rfl⟩ := List.mem_eraseIdx_iff_getElem.mp hb
    rw [List.getD_eq_getElem _ _ hi, sub_ne_zero]
    intro hEq
    exact hji ((hnd.getElem_inj_iff).mp hEq.symm)
  rw [lagBasis, toPoly_uSmul, Polynomial.eval_mul, Polynomial.eval_C, toPoly_nodal,
    Polynomial.eval_list_prod, List.map_map]
  have hmap : (Polynomial.eval (xs.getD i 0) ∘ fun a =>
      Polynomial.X - Polynomial.C a) = fun b => xs.getD i 0 - b := by
    funext b; simp
  rw [hmap]
  exact inv_mul_cancel₀ (List.prod_ne_zero (fun h0 => by
    obtain ⟨b, hb, hb0⟩ := List.mem_map.mp h0
    exact hne b hb hb0))

/-- The Lagrange basis polynomial evaluates to `0` at every other node. -/
theorem eval_lagBasis_ne {q : ℕ} (xs : List (ZMod q)) {i j : ℕ}
    (hij : j ≠ i) (hj : j < xs.length) :
    Polynomial.eval (xs.getD j 0) (toPoly (lagBasis xs i)) = 0 := by
  rw [lagBasis, toPoly_uSmul, Polynomial.eval_mul, Polynomial.eval_C, toPoly_nodal,
    Polynomial.eval_list_prod, List.map_map]
  have hmem : (0 : ZMod q) ∈ (xs.eraseIdx i).map
      ((Polynomial.eval (xs.getD j 0)) ∘ fun a => Polynomial.X - Polynomial.C a) := by
    refine List.mem_map.mpr ⟨xs.getD j 0, ?_, by simp⟩
    exact List.mem_eraseIdx_iff_getElem.mpr
      ⟨j, hj, hij, (List.getD_eq_getElem _ _ hj).symm⟩
  rw [List.prod_eq_zero hmem, mul_zero]

theorem sum_map_range_eq_single {q : ℕ} :
    ∀ (n : ℕ) (g : ℕ → ZMod q) (j : ℕ), j < n → (∀ i, i < n → i ≠ j → g i = 0) →
      ((List.range n).map g).sum = g j := by
  intro n
  induction n with
  | zero => intro g j hj; omega
  | succ n ih =>
    intro g j hj hz
    rw [List.range_succ, List.map_append, List.sum_append]
    rcases Nat.lt_or_ge j n with hjn | hjn
    · rw [ih g j hjn (fun i hi hij => hz i (by omega) hij)]
      have : g n = 0 := hz n (by omega) (by omega)
      simp [this]
    · have hjeq : j = n := by omega
      subst hjeq
      have : ((List.range j).map g).sum = 0 :=
        List.sum_eq_zero (fun x hx => by
          obtain ⟨i, hi, rfl⟩ := List.mem_map.mp hx
          exact hz i (by simp at hi; omega) (by simp at hi; omega))
      simp [this]

/-- Evaluating the modelled Lagrange interpolant at a node returns the value
prescribed there. -/
theorem eval_lagrangeCoeffs_node {q : ℕ} [Fact (Nat.Prime q)]
    (xs : List (ZMod q)) (f : ZMod q → ZMod q) (hnd : xs.Nodup)
    {j : ℕ} (hj : j < xs.length) :
    Polynomial.eval (xs.getD j 0)
      (toPoly (lagrangeCoeffs (xs.map (fun x => (x, f x))))) = f (xs.getD j 0) := by
  have hlen : (xs.map (fun x => (x, f x))).length = xs.length := by simp
  have hfst : (xs.map (fun x => (x, f x))).map Prod.fst = xs := by
    rw [List.map_map]
    exact List.map_congr_left (fun a _ => rfl) |>.trans (List.map_id xs)
  have hgetD : ∀ i, i < xs.length →
      ((xs.map (fun x => (x, f x))).getD i ((0 : ZMod q), (0 : ZMod q))).2 =
        f (xs.getD i 0) := by
    intro i hi
    rw [List.getD_eq_getElem _ _ (by simpa using hi), List.getElem_map,
      List.getD_eq_getElem _ _ hi]
  rw [toPoly_lagrangeCoeffs, hfst, hlen, ← Polynomial.coe_evalRingHom, map_list_sum,
    List.map_map]
  rw [sum_map_range_eq_single xs.length _ j hj ?vanish]
  case vanish =>
    intro i hi hij
    simp only [Function.comp_apply, Polynomial.coe_evalRingHom, Polynomial.eval_mul,
      Polynomial.eval_C]
    rw [eval_lagBasis_ne xs (Ne.symm hij) hj, mul_zero]
  · simp only [Function.comp_apply, Polynomial.coe_evalRingHom, Polynomial.eval_mul,
      Polynomial.eval_C]
    rw [eval_lagBasis_self xs hnd hj, hgetD j hj, mul_one]

/-- Key property of the modelled Lagrange interpolation: interpolating the
value table of a polynomial of degree below `q` through all `q` field elements
recovers it coefficient by coefficient. -/
theorem lagrangeCoeffs_recover {q : ℕ} [Fact (Nat.Prime q)]
    (u : List (ZMod q)) (hu : u.length ≤ q) (k : ℕ) :
    (lagrangeCoeffs ((fieldList q).map (fun x => (x, evalU u x)))).getD k 0 =
      u.getD k 0 := by
  haveI : NeZero q := ⟨(Fact.out : Nat.Prime q).ne_zero⟩
  have hcard : ((Finset.univ : Finset (ZMod q)).card : WithBot ℕ) = (q : ℕ) := by
    rw [Finset.card_univ, ZMod.card]
  have hlenpts : ((fieldList q).map (fun x => (x, evalU u x))).length = q := by
    simp [length_fieldList]
  have hdl : (toPoly (lagrangeCoeffs ((fieldList q).map (fun x => (x, evalU u x))))).degree <
      ((Finset.univ : Finset (ZMod q)).card : ℕ) := by
    rw [hcard]
    refine lt_of_lt_of_le (degree_toPoly_lt _) ?_
    exact_mod_cast Nat.cast_le.mpr (hlenpts ▸ length_lagrangeCoeffs_le _)
  have hdu : (toPoly u).degree < ((Finset.univ : Finset (ZMod q)).card : ℕ) := by
    rw [hcard]
    exact lt_of_lt_of_le (degree_toPoly_lt _) (by exact_mod_cast Nat.cast_le.mpr hu)
  have hinj : Set.InjOn id ((Finset.univ : Finset (ZMod q)) : Set (ZMod q)) :=
    Function.injective_id.injOn
  have h1 := Lagrange.eq_interpolate (v := id)
    (f := toPoly (lagrangeCoeffs ((fieldList q).map (fun x => (x, evalU u x))))) hinj hdl
  have h2 := Lagrange.eq_interpolate (v := id) (f := toPoly u) hinj hdu
  have hvals : (fun z => Polynomial.eval (id z)
        (toPoly (lagrangeCoeffs ((fieldList q).map (fun x => (x, evalU u x)))))) =
      (fun z => Polynomial.eval (id z) (toPoly u)) := by
    funext z
    obtain ⟨j, hj, hz⟩ := List.mem_iff_getElem.mp (mem_fieldList z)
    have hzD : (fieldList q).getD j 0 = z := by
      rw [List.getD_eq_getElem _ _ hj, hz]
    simp only [id]
    rw [← hzD, eval_lagrangeCoeffs_node (fieldList q) (fun x => evalU u x)
      (nodup_fieldList q) hj, eval_toPoly]
  have hkey : toPoly (lagrangeCoeffs ((fieldList q).map (fun x => (x, evalU u x)))) =
      toPoly u := by
    rw [h1, h2, hvals]
  have := congrArg (fun p => Polynomial.coeff p k) hkey
  simpa [coeff_toPoly] using this

/-! ## Properties of the domain enumeration -/

theorem length_tuples {α : Type} (S : List α) : ∀ (m : ℕ),
    (tuples S m).length = S.length ^ m
  | 0 => rfl
  | m + 1 => by
    rw [tuples, List.length_flatMap]
    have hconst : ∀ T : List α, (T.map (fun _ => S.length ^ m)).sum =
        T.length * S.length ^ m := by
      intro T
      induction T with
      | nil => simp
      | cons a T ih => simp_all [Nat.succ_mul, Nat.add_comm]
    have hmap : List.map (List.length ∘ fun x => (tuples S m).map
          (fun t => (Fin.snoc t x : Fin (m + 1) → α))) S =
        S.map (fun _ => S.length ^ m) := by
      refine List.map_congr_left (fun x _ => ?_)
      simp [length_tuples S m]
    rw [hmap, hconst, pow_succ, Nat.mul_comm]

theorem getD_flatMap_uniform {α β : Type} (g : α → List β) (B : ℕ) (d : β) (a0 : α)
    (hB : ∀ x, (g x).length = B) :
    ∀ (S : List α) (i k : ℕ), i < S.length → k < B →
      (S.flatMap g).getD (k + i * B) d = (g (S.getD i a0)).getD k d := by
  intro S
  induction S with
  | nil => intro i k hi; simp at hi
  | cons a S ih =>
    intro i k hi hk
    rw [List.flatMap_cons]
    cases i with
    | zero =>
      have hk2 : k < (g a).length := by rw [hB]; exact hk
      simp only [Nat.zero_mul, Nat.add_zero]
      rw [List.getD_append _ _ _ _ hk2]
      rfl
    | succ i =>
      have hskip : (g a).length ≤ k + (i + 1) * B := by rw [hB]; nlinarith
      rw [List.getD_append_right _ _ _ _ hskip]
      have hidx : k + (i + 1) * B - (g a).length = k + i * B := by
        rw [hB]; ring_nf; omega
      rw [hidx, ih i k (by simpa using hi) hk]
      rfl

/-- Block structure of the tuple enumeration: entry `k + i * |S|^m` of the
`(m+1)`-tuple list is entry `k` of the `m`-tuple list extended by the `i`-th
element of `S` as its last coordinate. -/
theorem getD_tuples_succ {α : Type} (S : List α) (m : ℕ) (dflt : Fin (m + 1) → α)
    (d0 : Fin m → α) (a0 : α) {k i : ℕ} (hk : k < S.length ^ m) (hi : i < S.length) :
    (tuples S (m + 1)).getD (k + i * S.length ^ m) dflt =
      Fin.snoc ((tuples S m).getD k d0) (S.getD i a0) := by
  have hB : ∀ x : α, ((tuples S m).map
      (fun t => (Fin.snoc t x : Fin (m + 1) → α))).length = S.length ^ m := by
    intro x; rw [List.length_map, length_tuples]
  rw [show tuples S (m + 1) = S.flatMap (fun x => (tuples S m).map
        (fun t => (Fin.snoc t x : Fin (m + 1) → α)))
      from rfl,
    getD_flatMap_uniform _ (S.length ^ m) dflt a0 hB S i k hi hk]
  have hkt : k < (tuples S m).length := by rw [length_tuples]; exact hk
  rw [List.getD_eq_getElem _ _ (by rw [List.length_map]; exact hkt), List.getElem_map,
    List.getD_eq_getElem _ _ hkt]

/-! ## Coefficient view of the iterated ring -/

theorem toCoeff_constNP (q : ℕ) : ∀ (nv : ℕ) (a : ZMod q) (e : Fin nv → ℕ),
    toCoeff q nv (constNP q nv a) e = if ∀ j, e j = 0 then a else 0
  | 0, a, e => by
    rw [toCoeff, if_pos (fun j => j.elim0)]
    rfl
  | nv + 1, a, e => by
    rw [toCoeff, constNP]
    rcases ht : e (Fin.last nv) with - | s
    · rw [show (([constNP q nv a] : List (NPoly q nv)).getD 0 (constNP q nv 0)) =
        constNP q nv a from rfl]
      rw [toCoeff_constNP q nv a]
      congr 1
      simp only [eq_iff_iff]
      constructor
      · intro hall j
        refine Fin.lastCases ht (fun j2 => hall j2) j
      · intro hall j2
        exact hall j2.castSucc
    · rw [show (([constNP q nv a] : List (NPoly q nv)).getD (s + 1) (constNP q nv 0)) =
        constNP q nv 0 from rfl]
      rw [toCoeff_constNP q nv 0]
      have : ¬ ∀ j, e j = 0 := fun hall => by rw [hall] at ht; exact Nat.noConfusion ht
      rw [if_neg this]
      split <;> rfl

theorem toCoeff_constNP_zero (q nv : ℕ) (e : Fin nv → ℕ) :
    toCoeff q nv (constNP q nv 0) e = 0 := by
  rw [toCoeff_constNP]
  split <;> rfl

/-! ## Helper lemmas on list indexing and Horner evaluation -/

theorem getD_map_of_lt {α β : Type} (f : α → β) (l : List α) {n : ℕ}
    (h : n < l.length) (d : β) (d2 : α) : (l.map f).getD n d = f (l.getD n d2) := by
  rw [List.getD_eq_getElem _ _ (by simpa using h), List.getElem_map,
    List.getD_eq_getElem _ _ h]

theorem getD_range_of_lt {n k : ℕ} (h : k < n) : (List.range n).getD k 0 = k := by
  rw [List.getD_eq_getElem _ _ (by simpa using h), List.getElem_range]

theorem getD_replicate_zero {q : ℕ} (n k : ℕ) :
    (List.replicate n (0 : ZMod q)).getD k 0 = 0 := by
  rcases Nat.lt_or_ge k n with h | h
  · rw [List.getD_eq_getElem _ _ (by simpa using h), List.getElem_replicate]
  · exact List.getD_eq_default _ _ (by simpa using h)

theorem getD_append_replicate_zero {q : ℕ} (l : List (ZMod q)) (n k : ℕ) :
    (l ++ List.replicate n (0 : ZMod q)).getD k 0 = l.getD k 0 := by
  rcases Nat.lt_or_ge k l.length with h | h
  · exact List.getD_append _ _ _ _ h
  · rw [List.getD_append_right _ _ _ _ h, getD_replicate_zero,
      List.getD_eq_default _ _ h]

/-- The zero padding of `polyVector` does not change any entry read back with
default `0`. -/
theorem interpPolyVector_getD (q nv order : ℕ) (ev : List (ZMod q)) (k t : ℕ) :
    (interpPolyVector q nv order ev k).getD t 0 =
      (lagrangeCoeffs (interpPoints q nv ev k)).getD t 0 := by
  rw [interpPolyVector]
  split
  · exact getD_append_replicate_zero _ _ _
  · rfl

theorem evalU_eq_sum {q : ℕ} : ∀ (l : List (ZMod q)) (x : ZMod q),
    evalU l x = ∑ s ∈ Finset.range l.length, l.getD s 0 * x ^ s
  | [], x => by simp [evalU]
  | a :: l, x => by
    rw [show evalU (a :: l) x = a + x * evalU l x from rfl, evalU_eq_sum l x,
      List.length_cons, Finset.sum_range_succ']
    simp only [List.getD_cons_succ, List.getD_cons_zero, pow_zero, mul_one]
    rw [Finset.mul_sum,
      Finset.sum_congr rfl (fun s _ => show x * (l.getD s 0 * x ^ s) =
        l.getD s 0 * x ^ (s + 1) by ring)]
    ring

/-! ## Decomposition of polynomial evaluation along the last variable -/

theorem evalFun_zero_vars (q B : ℕ) (c : (Fin 0 → ℕ) → ZMod q)
    (pt : Fin 0 → ZMod q) (e : Fin 0 → ℕ) : evalFun q 0 B c pt = c e := by
  rw [evalFun, Fintype.sum_unique]
  have : (fun j => ((default : Fin 0 → Fin B) j : ℕ)) = e := funext (fun j => j.elim0)
  rw [this]
  simp

theorem evalFun_snoc (q m B : ℕ) (c : (Fin (m + 1) → ℕ) → ZMod q)
    (pt : Fin m → ZMod q) (x : ZMod q) :
    evalFun q (m + 1) B c (Fin.snoc pt x) =
      ∑ t : Fin B, evalFun q m B (fun e2 => c (Fin.snoc e2 (t : ℕ))) pt * x ^ (t : ℕ) := by
  rw [evalFun, ← Equiv.sum_comp (Fin.snocEquiv (fun _ => Fin B)), Fintype.sum_prod_type]
  refine Finset.sum_congr rfl (fun t _ => ?_)
  rw [evalFun, Finset.sum_mul]
  refine Finset.sum_congr rfl (fun e2 _ => ?_)
  have happ : (Fin.snocEquiv (fun _ => Fin B)) (t, e2) = Fin.snoc e2 t := by
    funext j
    rfl
  rw [happ]
  have hcoe : (fun j => ((Fin.snoc e2 t : Fin (m + 1) → Fin B) j : ℕ)) =
      Fin.snoc (fun j => (e2 j : ℕ)) (t : ℕ) := by
    have := Fin.comp_snoc (fun s : Fin B => (s : ℕ)) e2 t
    exact this
  rw [hcoe]
  have hprod : ∏ j : Fin (m + 1), Fin.snoc pt x j ^
      (((Fin.snoc e2 t : Fin (m + 1) → Fin B) j : ℕ)) =
      (∏ j : Fin m, pt j ^ ((e2 j : ℕ))) * x ^ (t : ℕ) := by
    rw [Fin.prod_univ_castSucc]
    simp [Fin.snoc_castSucc, Fin.snoc_last]
  rw [hprod]
  ring

/-- A polynomial all of whose nonconstant coefficients vanish evaluates to its
constant coefficient. -/
theorem evalFun_const_support (q m B : ℕ) (hB : 0 < B) (c : (Fin m → ℕ) → ZMod q)
    (h : ∀ e : Fin m → ℕ, 0 < ∑ j, e j → c e = 0) (pt : Fin m → ZMod q) :
    evalFun q m B c pt = c (fun _ => 0) := by
  rw [evalFun, Finset.sum_eq_single (fun _ => (⟨0, hB⟩ : Fin B))]
  · simp
  · intro e _ hne
    have hpos : 0 < ∑ j, ((e j : ℕ)) := by
      rcases Nat.eq_zero_or_pos (∑ j, ((e j : ℕ))) with hz | hp
      · exfalso
        refine hne (funext (fun j => Fin.ext ?_))
        have := (Finset.sum_eq_zero_iff).mp hz j (Finset.mem_univ j)
        simpa using this
      · exact hp
    rw [h _ hpos, zero_mul]
  · intro habs
    exact absurd (Finset.mem_univ _) habs

/-! ## The interpolation recursion inverts evaluation -/

theorem encList_entry (q : ℕ) [NeZero q] (m : ℕ) (c : (Fin (m + 1) → ℕ) → ZMod q)
    {kk i : ℕ} (hkk : kk < q ^ m) (hi : i < q) :
    (encList q (m + 1) c).getD (kk + i * q ^ m) 0 =
      evalFun q (m + 1) q c
        (Fin.snoc ((tuples (fieldList q) m).getD kk (fun _ => 0)) ((i : ZMod q))) := by
  have hidx : kk + i * q ^ m < (tuples (fieldList q) (m + 1)).length := by
    rw [length_tuples, length_fieldList, pow_succ]
    calc kk + i * q ^ m < (i + 1) * q ^ m := by nlinarith
      _ ≤ q * q ^ m := by
          have : i + 1 ≤ q := hi
          exact Nat.mul_le_mul_right _ this
      _ = q ^ m * q := Nat.mul_comm _ _
  rw [encList, getD_map_of_lt _ _ hidx _ (fun _ => 0)]
  congr 1
  have := getD_tuples_succ (fieldList q) m (fun _ => 0) (fun _ => 0) 0
    (k := kk) (i := i) (by rw [length_fieldList]; exact hkk)
    (by rw [length_fieldList]; exact hi)
  rw [show (fieldList q).length = q from length_fieldList q] at this
  rw [this, getD_fieldList hi]

theorem interpSubTable_eq_encList (q : ℕ) [Fact (Nat.Prime q)] (m r : ℕ)
    (c : (Fin (m + 1) → ℕ) → ZMod q) {t : ℕ} (ht : t < q) :
    interpSubTable q (m + 1) r (encList q (m + 1) c) t =
      encList q m (fun e2 => c (Fin.snoc e2 t)) := by
  haveI : NeZero q := ⟨(Fact.out : Nat.Prime q).ne_zero⟩
  have hm1 : (m + 1) - 1 = m := Nat.add_sub_cancel m 1
  have hlen1 : (interpSubTable q (m + 1) r (encList q (m + 1) c) t).length = q ^ m := by
    rw [interpSubTable, List.length_map, List.length_range, hm1]
  have hlen2 : (encList q m (fun e2 => c (Fin.snoc e2 t))).length = q ^ m := by
    rw [encList, List.length_map, length_tuples, length_fieldList]
  refine List.ext_getElem (by rw [hlen1, hlen2]) ?_
  intro kk h1 h2
  rw [← List.getD_eq_getElem _ (0 : ZMod q) h1, ← List.getD_eq_getElem _ (0 : ZMod q) h2]
  have hkk : kk < q ^ m := by rw [hlen1] at h1; exact h1
  set ptk := (tuples (fieldList q) m).getD kk (fun _ => 0) with hptk
  set u := (List.range q).map
    (fun s => evalFun q m q (fun e2 => c (Fin.snoc e2 s)) ptk) with hu
  have hulen : u.length = q := by rw [hu, List.length_map, List.length_range]
  -- the point list handed to the Lagrange interpolation is the value table of u
  have hpoints : interpPoints q (m + 1) (encList q (m + 1) c) kk =
      (fieldList q).map (fun z => (z, evalU u z)) := by
    have hfl : (fieldList q).map (fun z => (z, evalU u z)) =
        (List.range q).map (fun i => (((i : ℕ) : ZMod q), evalU u ((i : ℕ) : ZMod q))) := by
      rw [fieldList, List.map_map]
      rfl
    rw [interpPoints, hm1, hfl]
    refine List.map_congr_left (fun i hir => ?_)
    have hi : i < q := List.mem_range.mp hir
    have hz : (fieldList q).getD i 0 = (i : ZMod q) := getD_fieldList hi
    refine Prod.ext hz ?_
    show (encList q (m + 1) c).getD (kk + i * q ^ m) 0 = evalU u ((i : ZMod q))
    rw [encList_entry q m c hkk hi, evalFun_snoc, evalU_eq_sum, hulen,
      ← Fin.sum_univ_eq_sum_range]
    refine Finset.sum_congr rfl (fun s _ => ?_)
    rw [hu, getD_map_of_lt _ _ (by simp [s.isLt]) _ 0, getD_range_of_lt s.isLt]
  have hLHS : (interpSubTable q (m + 1) r (encList q (m + 1) c) t).getD kk 0 =
      evalFun q m q (fun e2 => c (Fin.snoc e2 t)) ptk := by
    rw [interpSubTable, getD_map_of_lt _ _ (by simpa [hm1] using hkk) _ 0, hm1,
      getD_range_of_lt hkk, interpPolyVector_getD, hpoints,
      lagrangeCoeffs_recover u (le_of_eq hulen) t, hu,
      getD_map_of_lt _ _ (by simp [ht]) _ 0, getD_range_of_lt ht]
  rw [hLHS, encList, getD_map_of_lt _ _ (by rw [length_tuples, length_fieldList]; exact hkk)
    _ (fun _ => 0)]

/-- Main inversion lemma: decoding the codeword of a polynomial whose
per-variable degrees are below `q` and whose total degree is at most `r`
returns exactly that polynomial, coefficient by coefficient. -/
theorem roundtrip_toCoeff (q : ℕ) [Fact (Nat.Prime q)] :
    ∀ (m r : ℕ) (c : (Fin m → ℕ) → ZMod q),
      (∀ (e : Fin m → ℕ) (j : Fin m), q ≤ e j → c e = 0) →
      (∀ e : Fin m → ℕ, r < ∑ j, e j → c e = 0) →
      toCoeff q m (multivariatePolynomialInterpolation q m r (encList q m c)) = c := by
  haveI : NeZero q := ⟨(Fact.out : Nat.Prime q).ne_zero⟩
  have hqpos : 0 < q := Nat.pos_of_ne_zero (NeZero.ne q)
  intro m
  induction m with
  | zero =>
    intro r c h1 h2
    funext e
    show (encList q 0 c).getD 0 0 = c e
    rw [show (encList q 0 c).getD 0 0 = evalFun q 0 q c Fin.elim0 from rfl]
    exact evalFun_zero_vars q q c Fin.elim0 e
  | succ m ih =>
    intro r c h1 h2
    cases r with
    | zero =>
      funext e
      show toCoeff q (m + 1) (constNP q (m + 1) ((encList q (m + 1) c).getD 0 0)) e = c e
      rw [toCoeff_constNP]
      have hq0 : 0 < q ^ (m + 1) := pow_pos hqpos _
      have hev : (encList q (m + 1) c).getD 0 0 =
          evalFun q (m + 1) q c ((tuples (fieldList q) (m + 1)).getD 0 (fun _ => 0)) := by
        rw [encList, getD_map_of_lt _ _
          (by rw [length_tuples, length_fieldList]; exact hq0) _ (fun _ => 0)]
      rw [hev, evalFun_const_support q (m + 1) q hqpos c (fun e3 he => h2 e3 he) _]
      split
      · rename_i hall
        exact congrArg c (funext (fun j => (hall j).symm))
      · rename_i hne
        refine (h2 e ?_).symm
        rcases Nat.eq_zero_or_pos (∑ j, e j) with hz | hp
        · exact absurd (fun j => (Finset.sum_eq_zero_iff).mp hz j (Finset.mem_univ j)) hne
        · exact hp
    | succ r =>
      funext e
      show toCoeff q m
        (((List.range (min (r + 1 + 1) q)).map
          (fun k => multivariatePolynomialInterpolation q m (r + 1 - k)
            (interpSubTable q (m + 1) (r + 1) (encList q (m + 1) c) k)) :
          List (NPoly q m)).getD (e (Fin.last m)) (constNP q m 0))
          (fun j => e j.castSucc) = c e
      set t := e (Fin.last m) with htdef
      rcases Nat.lt_or_ge t (min (r + 1 + 1) q) with htd | htd
      · have ht : t < q := lt_of_lt_of_le htd (min_le_right _ _)
        have htr : t ≤ r + 1 := by
          have := lt_of_lt_of_le htd (min_le_left _ _)
          omega
        rw [getD_map_of_lt _ _ (by simpa using htd) _ 0, getD_range_of_lt htd,
          interpSubTable_eq_encList q m (r + 1) c ht]
        have h1s : ∀ (e2 : Fin m → ℕ) (j : Fin m), q ≤ e2 j → c (Fin.snoc e2 t) = 0 := by
          intro e2 j hj
          refine h1 _ j.castSucc ?_
          rw [Fin.snoc_castSucc]
          exact hj
        have h2s : ∀ e2 : Fin m → ℕ, r + 1 - t < ∑ j, e2 j → c (Fin.snoc e2 t) = 0 := by
          intro e2 hsum
          refine h2 _ ?_
          rw [Fin.sum_univ_castSucc]
          simp only [Fin.snoc_castSucc, Fin.snoc_last]
          omega
        rw [ih (r + 1 - t) (fun e2 => c (Fin.snoc e2 t)) h1s h2s]
        exact congrArg c (Fin.snoc_init_self e)
      · rw [List.getD_eq_default _ _ (by simpa using htd), toCoeff_constNP_zero]
        symm
        rcases Nat.le_total q (r + 1 + 1) with hcase | hcase
        · have hdq : min (r + 1 + 1) q = q := min_eq_right hcase
          refine h1 e (Fin.last m) ?_
          rw [← htdef]
          omega
        · have hdq : min (r + 1 + 1) q = r + 1 + 1 := min_eq_left hcase
          refine h2 e ?_
          have hle : t ≤ ∑ j, e j := by
            rw [htdef]
            exact Finset.single_le_sum (f := fun j => e j)
              (fun _ _ => Nat.zero_le _) (Finset.mem_univ (Fin.last m))
          omega

/-! ## Bridging grid messages with the inversion lemma -/

theorem evalFun_mono (q m B B2 : ℕ) (hBB : B ≤ B2) (c : (Fin m → ℕ) → ZMod q)
    (h : ∀ e : Fin m → ℕ, (∃ j, B ≤ e j) → c e = 0) (pt : Fin m → ZMod q) :
    evalFun q m B c pt = evalFun q m B2 c pt := by
  rw [evalFun, evalFun]
  refine Fintype.sum_of_injective
    (fun (e0 : Fin m → Fin B) (j : Fin m) => Fin.castLE hBB (e0 j))
    (fun e0 e1 hEq => funext (fun j => Fin.castLE_injective hBB (congrFun hEq j)))
    _ _ (fun E hE => ?_) (fun e0 => rfl)
  have : ∃ j, B ≤ ((E j : ℕ)) := by
    by_contra hno
    push_neg at hno
    exact hE ⟨fun j => ⟨E j, hno j⟩, funext (fun j => Fin.ext rfl)⟩
  rw [h _ this, zero_mul]

theorem fromGrid_outside {q m D : ℕ} (pc : (Fin m → Fin D) → ZMod q)
    (e : Fin m → ℕ) (he : ∃ j, D ≤ e j) : fromGrid pc e = 0 := by
  rw [fromGrid]
  refine dif_neg (fun hall => ?_)
  obtain ⟨j, hj⟩ := he
  exact absurd (hall j) (by omega)

/-- The degree test of `encode` bounds the total degree of every coefficient
of the message polynomial. -/
theorem fromGrid_degree_le {q m D : ℕ} (pc : (Fin m → Fin D) → ZMod q) (r : ℕ)
    (hdeg : pDegree ⟨q, m, D, pc⟩ ≤ (r : ℤ)) (e : Fin m → ℕ)
    (he : r < ∑ j, e j) : fromGrid pc e = 0 := by
  rw [fromGrid]
  split
  · rename_i hall
    by_contra hne
    have hmem : (∑ j, e j : ℕ) ∈ (Finset.univ.filter
        (fun e0 => pc e0 ≠ 0)).image (fun e0 : Fin m → Fin D => ∑ j, ((e0 j : ℕ))) := by
      refine Finset.mem_image.mpr ⟨fun j => ⟨e j, hall j⟩, ?_, rfl⟩
      exact Finset.mem_filter.mpr ⟨Finset.mem_univ _, hne⟩
    have hle := Finset.le_max hmem
    rw [pDegree] at hdeg
    rcases hmax : ((Finset.univ.filter (fun e0 => pc e0 ≠ 0)).image
        (fun e0 : Fin m → Fin D => ∑ j, ((e0 j : ℕ)))).max with - | dmax
    · rw [hmax] at hle
      exact (WithBot.not_coe_le_bot _ hle).elim
    · rw [hmax] at hle hdeg
      simp only at hdeg
      rw [show (some dmax : WithBot ℕ) = ((dmax : ℕ) : WithBot ℕ) from rfl] at hle
      have hd : (∑ j, e j : ℕ) ≤ dmax := WithBot.coe_le_coe.mp hle
      have hdr : (dmax : ℤ) ≤ r := hdeg
      have : (dmax : ℕ) ≤ r := by exact_mod_cast hdr
      omega
  · rfl

/-- The success case of `encode`, written without the dependent casts. -/
theorem encode_ok_eq (q r m D : ℕ) (pc : (Fin m → Fin D) → ZMod q)
    (hdeg : pDegree ⟨q, m, D, pc⟩ ≤ (r : ℤ)) :
    encode q r m ⟨q, m, D, pc⟩ =
      .ok ((tuples (fieldList q) m).map (evalFun q m D (fromGrid pc))) := by
  rw [encode, dif_pos rfl, dif_pos rfl, if_neg (not_lt.mpr hdeg)]
  rfl

/-! ## Claims C1 and C2: the encode/decode round trip -/

/-- The parameter condition under which `ReedMullerCode` constructs a code:
`order ≤ numberOfVariable` for the binary class (`q = 2`), `order < q` for the
q-ary class. -/
def rmValid (q r m : ℕ) : Prop := if q = 2 then r ≤ m else r < q

instance (q r m : ℕ) : Decidable (rmValid q r m) := by
  rw [rmValid]
  infer_instance

/-- Shared inversion helper: whenever `encode` succeeds on a message all of
whose per-variable degrees are below `q`, decoding the produced codeword
returns the message coefficient-wise. -/
theorem roundtrip_grid (q r m D : ℕ) [Fact (Nat.Prime q)]
    (pc : (Fin m → Fin D) → ZMod q) (v : List (ZMod q))
    (hvar : ∀ (e : Fin m → Fin D) (j : Fin m), q ≤ ((e j : ℕ)) → pc e = 0)
    (henc : encode q r m ⟨q, m, D, pc⟩ = .ok v) :
    toCoeff q m (multivariatePolynomialInterpolation q m r v) = fromGrid pc := by
  have hdeg : pDegree ⟨q, m, D, pc⟩ ≤ (r : ℤ) := by
    by_contra hgt
    push_neg at hgt
    rw [encode, dif_pos rfl, dif_pos rfl, if_pos hgt] at henc
    exact Except.noConfusion henc
  have hv : v = (tuples (fieldList q) m).map (evalFun q m D (fromGrid pc)) := by
    have hok := encode_ok_eq q r m D pc hdeg
    rw [henc] at hok
    exact Except.ok.inj hok
  subst hv
  have h1 : ∀ (e : Fin m → ℕ) (j : Fin m), q ≤ e j → fromGrid pc e = 0 := by
    intro e j hj
    rcases Nat.lt_or_ge (e j) D with hD | hD
    · rw [fromGrid]
      split
      · rename_i hall
        exact hvar _ j hj
      · rfl
    · exact fromGrid_outside pc e ⟨j, hD⟩
  have h2 : ∀ e : Fin m → ℕ, r < ∑ j, e j → fromGrid pc e = 0 :=
    fromGrid_degree_le pc r hdeg
  have hEnc : (tuples (fieldList q) m).map (evalFun q m D (fromGrid pc)) =
      encList q m (fromGrid pc) := by
    rw [encList]
    refine List.map_congr_left (fun pt _ => ?_)
    rcases le_total D q with hDq | hqD
    · exact evalFun_mono q m D q hDq (fromGrid pc)
        (fun e he => fromGrid_outside pc e he) pt
    · refine (evalFun_mono q m q D hqD (fromGrid pc) (fun e he => ?_) pt).symm
      obtain ⟨j, hj⟩ := he
      exact h1 e j hj
  rw [hEnc]
  exact roundtrip_toCoeff q m r (fromGrid pc) h1 h2

/-- Claim C1 as stated: over every (prime-field) Reed-Muller code, every
message polynomial of total degree at most `r` decodes back to itself after
encoding. -/
def c1Statement : Prop :=
  ∀ (q r m : ℕ), Nat.Prime q → rmValid q r m →
    ∀ (D : ℕ) (pc : (Fin m → Fin D) → ZMod q) (v : List (ZMod q)),
      encode q r m ⟨q, m, D, pc⟩ = .ok v →
      toCoeff q m (multivariatePolynomialInterpolation q m r v) = fromGrid pc

/-- The message `x0^2` over `GF(2)`: total degree `2`, per-variable degree
above `q - 1 = 1`. -/
def c1px : (Fin 2 → Fin 3) → ZMod 2 := fun e =>
  if (e 0 : ℕ) = 2 ∧ (e 1 : ℕ) = 0 then 1 else 0

/-- C1 as stated is false: in the binary code of order 2 in 2 variables, the
valid message `x0^2` (total degree `2 ≤ r`) encodes to `(0,1,0,1)`, which
decodes to `x0`: the coefficient of `x0^2` is lost. -/
theorem c1_counterexample : ¬ c1Statement := by
  intro h
  have hinst := h 2 2 2 (by norm_num) (by decide) 3 c1px [0, 1, 0, 1] (by decide)
  have happ := congrFun hinst (fun j => if j = 0 then 2 else 0)
  rw [show toCoeff 2 2 (multivariatePolynomialInterpolation 2 2 2 [0, 1, 0, 1])
      (fun j => if j = 0 then 2 else 0) = 0 from by decide,
    show fromGrid c1px (fun j => if j = 0 then 2 else 0) = 1 from by decide] at happ
  exact absurd happ (by decide)

/-- C1 amended: the round trip holds for every message polynomial of total
degree at most `r` whose degree in every single variable is also at most
`q - 1` (for the q-ary variant, where `r < q`, this added hypothesis is
automatic). -/
theorem c1_roundtrip_amended (q r m : ℕ) [Fact (Nat.Prime q)]
    (hvalid : rmValid q r m) (D : ℕ) (pc : (Fin m → Fin D) → ZMod q)
    (v : List (ZMod q))
    (hvar : ∀ (e : Fin m → Fin D) (j : Fin m), q ≤ ((e j : ℕ)) → pc e = 0)
    (henc : encode q r m ⟨q, m, D, pc⟩ = .ok v) :
    toCoeff q m (multivariatePolynomialInterpolation q m r v) = fromGrid pc :=
  roundtrip_grid q r m D pc v hvar henc

/-- The message `x0` over `GF(2)` in one variable, used to witness
`c1_roundtrip_amended` at a concrete input. -/
def c1wpc : (Fin 1 → Fin 2) → ZMod 2 := fun e => if (e 0 : ℕ) = 1 then 1 else 0

theorem c1_roundtrip_amended_witness :
    toCoeff 2 1 (multivariatePolynomialInterpolation 2 1 1 [0, 1]) = fromGrid c1wpc :=
  @c1_roundtrip_amended 2 1 1 ⟨by norm_num⟩ (by decide) 2 c1wpc [0, 1]
    (by decide) (by decide)

/-- The polynomial `1 + x0 + x1 + x1^2 + x0*x1` over `GF(3)` of the concrete
scenario of claim C2. -/
def c2poly : (Fin 2 → Fin 3) → ZMod 3 := fun e =>
  if ((e 0 : ℕ) = 0 ∧ (e 1 : ℕ) = 0) ∨ ((e 0 : ℕ) = 1 ∧ (e 1 : ℕ) = 0) ∨
     ((e 0 : ℕ) = 0 ∧ (e 1 : ℕ) = 1) ∨ ((e 0 : ℕ) = 0 ∧ (e 1 : ℕ) = 2) ∨
     ((e 0 : ℕ) = 1 ∧ (e 1 : ℕ) = 1) then 1 else 0

/-- Claim C2: for `q = 3`, `m = 2`, `r = 2`, encoding
`1 + x0 + x1 + x1^2 + x0*x1` yields exactly `(1, 2, 0, 0, 2, 1, 1, 1, 1)`,
and decoding that codeword returns exactly that polynomial (the decoded ring
element has the same coefficient function). -/
theorem c2_concrete_scenario :
    encode 3 2 2 ⟨3, 2, 3, c2poly⟩ = .ok [1, 2, 0, 0, 2, 1, 1, 1, 1] ∧
    toCoeff 3 2 (multivariatePolynomialInterpolation 3 2 2 [1, 2, 0, 0, 2, 1, 1, 1, 1]) =
      fromGrid c2poly := by
  refine ⟨by decide, ?_⟩
  exact @roundtrip_grid 3 2 2 3 ⟨by norm_num⟩ c2poly [1, 2, 0, 0, 2, 1, 1, 1, 1]
    (by decide) (by decide)

/-! ## Claim C9: shape of the decoded polynomial -/

/-- Degree bounds of the interpolation output, for an arbitrary input table:
every monomial with a nonzero coefficient has total degree at most `order`
and degree at most `min order (q-1)` in each single variable. -/
theorem interp_degree_bound (q : ℕ) : ∀ (nv order : ℕ) (ev : List (ZMod q))
    (e : Fin nv → ℕ),
    toCoeff q nv (multivariatePolynomialInterpolation q nv order ev) e ≠ 0 →
    (∑ j, e j) ≤ order ∧ ∀ j, e j ≤ min order (q - 1) := by
  intro nv
  induction nv with
  | zero =>
    intro order ev e hne
    exact ⟨by simp, fun j => j.elim0⟩
  | succ nv ih =>
    intro order ev e hne
    cases order with
    | zero =>
      rw [show multivariatePolynomialInterpolation q (nv + 1) 0 ev =
          constNP q (nv + 1) (ev.getD 0 0) from rfl, toCoeff_constNP] at hne
      split at hne
      · rename_i hall
        refine ⟨le_of_eq (Finset.sum_eq_zero (fun j _ => hall j)), fun j => ?_⟩
        rw [hall j]
        exact Nat.zero_le _
      · exact absurd rfl hne
    | succ order =>
      have hne2 : toCoeff q nv
          (((List.range (min (order + 1 + 1) q)).map
            (fun k => multivariatePolynomialInterpolation q nv (order + 1 - k)
              (interpSubTable q (nv + 1) (order + 1) ev k)) :
            List (NPoly q nv)).getD (e (Fin.last nv)) (constNP q nv 0))
          (fun j => e j.castSucc) ≠ 0 := hne
      set t := e (Fin.last nv) with htdef
      rcases Nat.lt_or_ge t (min (order + 1 + 1) q) with htd | htd
      · rw [getD_map_of_lt _ _ (by simpa using htd) _ 0, getD_range_of_lt htd] at hne2
        obtain ⟨hsum, hvar⟩ := ih (order + 1 - t) _ _ hne2
        have ht1 : t ≤ order + 1 := by
          have := lt_of_lt_of_le htd (min_le_left _ _)
          omega
        have htq : t ≤ q - 1 := by
          have := lt_of_lt_of_le htd (min_le_right _ _)
          omega
        constructor
        · rw [Fin.sum_univ_castSucc, ← htdef]
          omega
        · intro j
          refine Fin.lastCases ?_ (fun j2 => ?_) j
          · rw [← htdef]
            exact le_min ht1 htq
          · have := hvar j2
            have h1 := min_le_left (order + 1 - t) (q - 1)
            have h2 := min_le_right (order + 1 - t) (q - 1)
            refine le_min (by omega) (by omega)
      · rw [List.getD_eq_default _ _ (by simpa using htd), toCoeff_constNP_zero] at hne2
        exact absurd rfl hne2

/-- Claim C9: on every input vector of length `q^m` (codeword or not), the
decoder returns a polynomial of total degree at most `order` whose degree in
each variable is at most `min order (q-1)`; termination is structural (the
recursion decreases `numberOfVariable` and bottoms out at
`numberOfVariable = 0` or `order = 0`), witnessed by
`multivariatePolynomialInterpolation` being a total function. -/
theorem c9_decode_degree (q nv order : ℕ) (ev : List (ZMod q))
    (hlen : ev.length = q ^ nv) (e : Fin nv → ℕ)
    (hne : toCoeff q nv (multivariatePolynomialInterpolation q nv order ev) e ≠ 0) :
    (∑ j, e j) ≤ order ∧ ∀ j, e j ≤ min order (q - 1) :=
  interp_degree_bound q nv order ev e hne

theorem c9_decode_degree_witness :
    ([(2 : ZMod 3)] : List (ZMod 3)).length = 3 ^ 0 ∧
    ((∑ j, (fun _ : Fin 0 => 0) j) ≤ 2 ∧
      ∀ j : Fin 0, (fun _ : Fin 0 => 0) j ≤ min 2 (3 - 1)) :=
  ⟨by decide, c9_decode_degree 3 0 2 [2] (by decide) (fun _ => 0) (by decide)⟩

/-! ## Claim C10: every list access of the recursive case is in bounds -/

/-- Claim C10: with an evaluation table of length exactly `q^(nv+1)`, every
index `k + i*nq` with `k < nq` and `i < q` is below the table length, the
field-element list has exactly `q` entries, every padded coefficient list has
at least `d = min(order+1, q)` entries, and every recursive call receives a
table of length exactly `q^nv`. -/
theorem c10_interp_access (q nv order : ℕ) (ev : List (ZMod q))
    (hlen : ev.length = q ^ (nv + 1)) :
    (∀ k i : ℕ, k < q ^ ((nv + 1) - 1) → i < q → k + i * q ^ ((nv + 1) - 1) < ev.length) ∧
    (fieldList q).length = q ∧
    (∀ k : ℕ, min (order + 1) q ≤ (interpPolyVector q (nv + 1) order ev k).length) ∧
    (∀ k : ℕ, (interpSubTable q (nv + 1) order ev k).length = q ^ ((nv + 1) - 1)) := by
  refine ⟨?_, length_fieldList q, ?_, ?_⟩
  · intro k i hk hi
    rw [hlen, Nat.add_sub_cancel nv 1] at *
    calc k + i * q ^ nv < (i + 1) * q ^ nv := by nlinarith
      _ ≤ q * q ^ nv := Nat.mul_le_mul_right _ hi
      _ = q ^ (nv + 1) := by rw [pow_succ, Nat.mul_comm]
  · intro k
    rw [interpPolyVector]
    split
    · rename_i hshort
      rw [List.length_append, List.length_replicate]
      omega
    · rename_i hlong
      omega
  · intro k
    rw [interpSubTable, List.length_map, List.length_range]

theorem c10_interp_access_witness :
    ([(1 : ZMod 2), 0, 1, 1] : List (ZMod 2)).length = 2 ^ (1 + 1) ∧
    (∀ k i : ℕ, k < 2 ^ ((1 + 1) - 1) → i < 2 →
      k + i * 2 ^ ((1 + 1) - 1) < ([(1 : ZMod 2), 0, 1, 1] : List (ZMod 2)).length) :=
  ⟨by decide, (c10_interp_access 2 1 1 [1, 0, 1, 1] (by decide)).1⟩

/-! ## Claim C3: the domain enumeration order -/

/-- Coordinate formula of the tuple enumeration: coordinate `j` of the `i`-th
tuple is the element of index `(i / |S|^j) % |S|`, so coordinate `0` has
stride 1 (fastest) and the last coordinate has stride `|S|^(m-1)` (slowest). -/
theorem getD_tuples_coord {α : Type} (S : List α) (a0 : α) (hS : 0 < S.length) :
    ∀ (m : ℕ) (i : ℕ), i < S.length ^ m → ∀ (dflt : Fin m → α) (j : Fin m),
      (tuples S m).getD i dflt j = S.getD ((i / S.length ^ (j : ℕ)) % S.length) a0 := by
  intro m
  induction m with
  | zero =>
    intro i hi dflt j
    exact j.elim0
  | succ m ih =>
    intro i hi dflt j
    have hpow : 0 < S.length ^ m := pow_pos hS m
    have hkt : i = i % S.length ^ m + i / S.length ^ m * S.length ^ m :=
      (Nat.mod_add_div' i (S.length ^ m)).symm
    have hklt : i % S.length ^ m < S.length ^ m := Nat.mod_lt _ hpow
    have htlt : i / S.length ^ m < S.length := by
      apply Nat.div_lt_of_lt_mul
      rw [← pow_succ]
      exact hi
    rw [hkt, getD_tuples_succ S m dflt (fun _ => a0) a0 hklt htlt]
    refine Fin.lastCases ?_ (fun j2 => ?_) j
    · rw [Fin.snoc_last]
      have hlast : ((Fin.last m : Fin (m + 1)) : ℕ) = m := rfl
      rw [hlast]
      congr 1
      rw [← hkt, Nat.mod_eq_of_lt htlt]
    · rw [Fin.snoc_castSucc, ih _ hklt (fun _ => a0) j2, Fin.coe_castSucc]
      have hj2 : (j2 : ℕ) < m := j2.isLt
      have hfac : (i / S.length ^ m) * S.length ^ m =
          S.length ^ (j2 : ℕ) * ((i / S.length ^ m) * S.length ^ (m - (j2 : ℕ))) := by
        have hpows : S.length ^ (j2 : ℕ) * S.length ^ (m - (j2 : ℕ)) = S.length ^ m := by
          rw [← pow_add]
          congr 1
          omega
        calc (i / S.length ^ m) * S.length ^ m
            = (i / S.length ^ m) * (S.length ^ (j2 : ℕ) * S.length ^ (m - (j2 : ℕ))) := by
              rw [hpows]
          _ = S.length ^ (j2 : ℕ) * ((i / S.length ^ m) * S.length ^ (m - (j2 : ℕ))) := by
              ring
      have hres : m - (j2 : ℕ) = (m - (j2 : ℕ) - 1) + 1 := by omega
      have hidx : (i % S.length ^ m + i / S.length ^ m * S.length ^ m) /
            S.length ^ (j2 : ℕ) % S.length =
          i % S.length ^ m / S.length ^ (j2 : ℕ) % S.length := by
        rw [hfac, Nat.add_mul_div_left _ _ (pow_pos hS _), hres, pow_succ,
          ← mul_assoc, Nat.add_mul_mod_self_right]
      rw [hidx]

/-- Claim C3 as stated: row-major order with coordinate 0 slowest, i.e.
coordinate `j` of the `i`-th point has stride `q^(m-1-j)`. -/
def c3Statement : Prop :=
  ∀ (q m : ℕ), 0 < q → ∀ i : ℕ, i < q ^ m → ∀ (j : Fin m),
    (tuples (fieldList q) m).getD i (fun _ => 0) j =
      (fieldList q).getD ((i / q ^ (m - 1 - (j : ℕ))) % q) 0

/-- C3 as stated is false: for `q = 3`, `m = 2`, the point of index 1 is
`(1, 0)` — coordinate 0 already changed after one step — while the claimed
order demands `(0, 1)`. -/
theorem c3_counterexample : ¬ c3Statement := by
  intro h
  have := h 3 2 (by norm_num) 1 (by norm_num) 0
  exact absurd this (by decide)

/-- C3 amended: the enumeration is the mirror image of the claimed one:
coordinate 0 varies fastest (stride 1) and coordinate `m-1` slowest (stride
`q^(m-1)`); coordinate `j` of the `i`-th point is the field element of index
`(i / q^j) % q`. -/
theorem c3_domain_order_amended (q m : ℕ) (hq : 0 < q) (i : ℕ) (hi : i < q ^ m)
    (j : Fin m) :
    (tuples (fieldList q) m).getD i (fun _ => 0) j =
      (fieldList q).getD ((i / q ^ ((j : ℕ))) % q) 0 := by
  have := getD_tuples_coord (fieldList q) 0 (by rw [length_fieldList]; exact hq) m i
    (by rw [length_fieldList]; exact hi) (fun _ => 0) j
  rw [length_fieldList] at this
  exact this

theorem c3_domain_order_amended_witness :
    (tuples (fieldList 3) 2).getD 5 (fun _ => 0) 0 =
      (fieldList 3).getD ((5 / 3 ^ 0) % 3) 0 :=
  c3_domain_order_amended 3 2 (by norm_num) 5 (by norm_num) 0

/-! ## Claim C4: length, dimension and `binomialSum` -/

/-- Loop invariant of `binomialSum`: after `k` iterations the accumulator
holds `(∑ i ≤ k, C(n,i), C(n,k))`; every Python 2 floor division `/` along
the way is exact. -/
theorem binomialSum_loop (n : ℕ) : ∀ k : ℕ,
    (List.range k).foldl
      (fun (p : ℤ × ℤ) (i : ℕ) =>
        let nCi := (((n : ℤ) - (i : ℤ)) * p.2).fdiv ((i : ℤ) + 1)
        (nCi + p.1, nCi)) (1, 1) =
      (∑ i ∈ Finset.range (k + 1), ((n.choose i : ℤ)), (n.choose k : ℤ)) := by
  intro k
  induction k with
  | zero => simp
  | succ k ih =>
    rw [List.range_succ, List.foldl_append, ih, List.foldl_cons, List.foldl_nil]
    have hstep : (((n : ℤ) - (k : ℤ)) * (n.choose k : ℤ)).fdiv ((k : ℤ) + 1) =
        (n.choose (k + 1) : ℤ) := by
      rcases Nat.lt_or_ge k n with hk | hk
      · have hident : n.choose (k + 1) * (k + 1) = n.choose k * (n - k) :=
          Nat.choose_succ_right_eq n k
        have hcast : ((n - k : ℕ) : ℤ) = (n : ℤ) - (k : ℤ) := by
          rw [Int.ofNat_sub hk.le]
        have heq : ((n : ℤ) - (k : ℤ)) * (n.choose k : ℤ) =
            ((k : ℤ) + 1) * (n.choose (k + 1) : ℤ) := by
          have := congrArg (fun x : ℕ => (x : ℤ)) hident
          push_cast at this
          rw [hcast] at this
          linarith
        rw [heq, Int.mul_fdiv_cancel_left _ (by positivity)]
      · rcases Nat.eq_or_lt_of_le hk with heq | hgt
        · subst heq
          rw [Nat.choose_succ_self, sub_self, zero_mul, Int.zero_fdiv, Nat.cast_zero]
        · rw [Nat.choose_eq_zero_of_lt hgt, Nat.choose_eq_zero_of_lt (by omega),
            Nat.cast_zero, mul_zero, Int.zero_fdiv]
    rw [hstep]
    refine Prod.ext ?_ rfl
    conv_rhs => rw [Finset.sum_range_succ]
    ring

theorem binomialSum_eq (n k : ℕ) :
    binomialSum n k = ∑ i ∈ Finset.range (k + 1), ((n.choose i : ℤ)) := by
  rw [binomialSum, binomialSum_loop]

/-- Claim C4: the length stored by both constructors is `q^m`; the stored
dimension is the closed form `C(m+r, r)` for the q-ary class and
`∑ i ≤ r, C(m, i)` for the binary class; the helper `binomialSum n k` equals
`∑ i ≤ k, C(n, i)`. -/
theorem c4_length_dimension :
    (∀ n k : ℕ, binomialSum n k = ∑ i ∈ Finset.range (k + 1), ((n.choose i : ℤ))) ∧
    (∀ q m : ℕ, rmLength q m = q ^ m) ∧
    (∀ q r m : ℕ, q ≠ 2 → (qaryCheck q (.int r) (.int m)).isOk = true →
      rmDimension q r m = (m + r).choose r) ∧
    (∀ r m : ℕ, (binaryCheck (.int r) (.int m)).isOk = true →
      rmDimension 2 r m = ∑ i ∈ Finset.range (r + 1), m.choose i) := by
  refine ⟨binomialSum_eq, fun q m => rfl, fun q r m hq2 _ => ?_, fun r m _ => ?_⟩
  · rw [rmDimension, if_neg hq2]
  · rw [rmDimension, if_pos rfl, binomialSum_eq]
    have : (∑ i ∈ Finset.range (r + 1), ((m.choose i : ℤ))) =
        ((∑ i ∈ Finset.range (r + 1), m.choose i : ℕ) : ℤ) := by
      push_cast
      rfl
    rw [this, Int.toNat_natCast]

theorem c4_length_dimension_witness :
    rmDimension 3 2 2 = (2 + 2).choose 2 ∧
    rmDimension 2 2 4 = ∑ i ∈ Finset.range 3, (4).choose i :=
  ⟨c4_length_dimension.2.2.1 3 2 2 (by decide) (by decide),
    c4_length_dimension.2.2.2 2 4 (by decide)⟩

/-! ## Claim C5: the validation performed at construction -/

def isError {e a : Type} : Except e a → Bool
  | .error _ => true
  | .ok _ => false

def isNonnegInt : PyNum → Bool
  | .int n => decide (0 ≤ n)
  | .other => false

/-- Claim C5 as stated: validation fails exactly when order or variable count
is not a non-negative integer, or the order bound is violated. -/
def c5Statement : Prop :=
  (∀ (q : ℕ) (order numberOfVariable : PyNum),
    isError (qaryCheck q order numberOfVariable) = true ↔
      (isNonnegInt order = false ∨ isNonnegInt numberOfVariable = false ∨
        (∃ r : ℤ, order = .int r ∧ (q : ℤ) ≤ r))) ∧
  (∀ (order numberOfVariable : PyNum),
    isError (binaryCheck order numberOfVariable) = true ↔
      (isNonnegInt order = false ∨ isNonnegInt numberOfVariable = false ∨
        (∃ r mv : ℤ, order = .int r ∧ numberOfVariable = .int mv ∧ mv < r)))

/-- C5 as stated is false: the constructors only check `isinstance(-, Integer)`
and never non-negativity, so the negative integer order `-1` (with `q = 3`,
`m = 2`) passes validation even though the claim demands a failure. -/
theorem c5_counterexample : ¬ c5Statement := by
  intro h
  have h2 := (h.1 3 (PyNum.int (-1)) (PyNum.int 2)).mpr (Or.inl (by decide))
  exact absurd h2 (by decide)

/-- C5 amended: validation fails exactly when order or variable count is not
an `Integer` at all (negative integers are accepted), or the q-ary class
receives `order ≥ q`, or the binary class receives `order > numberOfVariable`. -/
theorem c5_validation_amended :
    (∀ (q : ℕ) (order numberOfVariable : PyNum),
      isError (qaryCheck q order numberOfVariable) = true ↔
        (order = .other ∨ numberOfVariable = .other ∨
          (∃ r : ℤ, order = .int r ∧ (q : ℤ) ≤ r))) ∧
    (∀ (order numberOfVariable : PyNum),
      isError (binaryCheck order numberOfVariable) = true ↔
        (order = .other ∨ numberOfVariable = .other ∨
          (∃ r mv : ℤ, order = .int r ∧ numberOfVariable = .int mv ∧ mv < r))) := by
  constructor
  · intro q order mv
    cases order with
    | other => simp [qaryCheck, isError]
    | int r =>
      cases mv with
      | other => simp [qaryCheck, isError]
      | int mval =>
        rw [qaryCheck]
        split
        · rename_i hle
          simp [isError, hle]
        · rename_i hgt
          simp only [isError, Bool.false_eq_true, false_iff]
          push_neg
          refine ⟨fun habs => PyNum.noConfusion habs, fun habs => PyNum.noConfusion habs,
            fun r2 h2 => ?_⟩
          injection h2 with h3
          subst h3
          omega
  · intro order mv
    cases order with
    | other => simp [binaryCheck, isError]
    | int r =>
      cases mv with
      | other => simp [binaryCheck, isError]
      | int mval =>
        rw [binaryCheck]
        split
        · rename_i hlt
          simp only [isError, true_iff]
          exact Or.inr (Or.inr ⟨r, mval, rfl, rfl, hlt⟩)
        · rename_i hge
          simp only [isError, Bool.false_eq_true, false_iff]
          push_neg
          refine ⟨fun habs => PyNum.noConfusion habs, fun habs => PyNum.noConfusion habs,
            fun r2 mv2 h2 h3 => ?_⟩
          injection h2 with h4
          injection h3 with h5
          subst h4
          subst h5
          omega

/-! ## Claim C8: when `encode` raises, and what it returns -/

/-- Claim C8: `encode` raises exactly when the message lies in the wrong
polynomial ring (field size or variable count differs from the message
space) or its total degree exceeds the order; on success it returns the
vector of length `q^m` of evaluations of the message at the points of the
fixed domain enumeration.  (Both encode paths are pure: the source method
only reads its inputs, so nothing is mutated on error.) -/
theorem c8_encode_errors (q r m : ℕ) (p : PolyIn) :
    (isError (encode q r m p) = true ↔
      (p.fieldSize ≠ q ∨ p.numVars ≠ m ∨ (r : ℤ) < pDegree p)) ∧
    (∀ (D : ℕ) (pc : (Fin m → Fin D) → ZMod q) (v : List (ZMod q)),
      encode q r m ⟨q, m, D, pc⟩ = .ok v →
      v.length = q ^ m ∧
      ∀ i : ℕ, i < q ^ m → v.getD i 0 =
        evalFun q m D (fromGrid pc) ((tuples (fieldList q) m).getD i (fun _ => 0))) := by
  constructor
  · rw [encode]
    split
    · rename_i hq
      split
      · rename_i hm
        split
        · rename_i hdeg
          simp [isError, hq, hm, hdeg]
        · rename_i hdeg
          simp [isError, hq, hm, hdeg]
      · rename_i hm
        simp [isError, hm]
    · rename_i hq
      simp [isError, hq]
  · intro D pc v henc
    have hdeg : pDegree ⟨q, m, D, pc⟩ ≤ (r : ℤ) := by
      by_contra hgt
      push_neg at hgt
      rw [encode, dif_pos rfl, dif_pos rfl, if_pos hgt] at henc
      exact Except.noConfusion henc
    have hv : v = (tuples (fieldList q) m).map (evalFun q m D (fromGrid pc)) := by
      have hok := encode_ok_eq q r m D pc hdeg
      rw [henc] at hok
      exact Except.ok.inj hok
    subst hv
    refine ⟨by rw [List.length_map, length_tuples, length_fieldList], fun i hi => ?_⟩
    rw [getD_map_of_lt _ _ (by rw [length_tuples, length_fieldList]; exact hi) _ (fun _ => 0)]

theorem c8_encode_errors_witness :
    ([(1 : ZMod 3), 2, 0, 2, 1, 0, 0, 0, 0] : List (ZMod 3)).length = 3 ^ 2 ∧
    ∀ i : ℕ, i < 3 ^ 2 →
      ([(1 : ZMod 3), 2, 0, 2, 1, 0, 0, 0, 0] : List (ZMod 3)).getD i 0 =
        evalFun 3 2 2 (fromGrid (fun _ : Fin 2 → Fin 2 => (1 : ZMod 3)))
          ((tuples (fieldList 3) 2).getD i (fun _ => 0)) :=
  (c8_encode_errors 3 2 2 ⟨3, 2, 2, fun _ => 1⟩).2 2
    (fun _ : Fin 2 → Fin 2 => (1 : ZMod 3)) [1, 2, 0, 2, 1, 0, 0, 0, 0] (by decide)

/-! ## Claims C6 and C7: the monomial basis and the generator matrix -/

theorem mem_boundedVecs {b : ℕ} : ∀ {m s : ℕ} {v : List ℕ},
    v ∈ boundedVecs b m s ↔ (v.length = m ∧ (∀ x ∈ v, x ≤ b) ∧ v.sum = s) := by
  intro m
  induction m with
  | zero =>
    intro s v
    rw [boundedVecs]
    constructor
    · intro hv
      split at hv
      · rename_i hs
        rw [List.mem_singleton] at hv
        subst hv
        simp [hs.symm]
      · exact absurd hv (List.not_mem_nil v)
    · rintro ⟨hlen, -, hsum⟩
      have hnil : v = [] := List.eq_nil_of_length_eq_zero hlen
      subst hnil
      rw [if_pos (by simpa using hsum.symm)]
      exact List.mem_singleton.mpr rfl
  | succ m ih =>
    intro s v
    rw [boundedVecs, List.mem_flatMap]
    constructor
    · rintro ⟨e0, he0, hv⟩
      rw [List.mem_reverse, List.mem_range] at he0
      split at hv
      · rename_i he0s
        obtain ⟨w, hw, rfl⟩ := List.mem_map.mp hv
        obtain ⟨hwlen, hwb, hwsum⟩ := ih.mp hw
        refine ⟨by simp [hwlen], ?_, ?_⟩
        · intro x hx
          rcases List.mem_cons.mp hx with rfl | hx2
          · omega
          · exact hwb x hx2
        · rw [List.sum_cons, hwsum]
          omega
      · exact absurd hv (List.not_mem_nil v)
    · rintro ⟨hlen, hb, hsum⟩
      rcases v with - | ⟨x, w⟩
      · exact absurd hlen (by simp)
      refine ⟨x, ?_, ?_⟩
      · rw [List.mem_reverse, List.mem_range]
        have := hb x (List.mem_cons_self x w)
        omega
      · have hxs : x ≤ s := by
          rw [List.sum_cons] at hsum
          omega
        rw [if_pos hxs]
        refine List.mem_map.mpr ⟨w, ih.mpr ⟨by simpa using hlen,
          fun y hy => hb y (List.mem_cons_of_mem x hy), ?_⟩, rfl⟩
        rw [List.sum_cons] at hsum
        omega

theorem nodup_flatMap_lists (g : ℕ → List (List ℕ)) :
    ∀ (L : List ℕ), L.Nodup → (∀ e0, (g e0).Nodup) →
      (∀ e0 v, v ∈ g e0 → v.head? = some e0) → (L.flatMap g).Nodup := by
  intro L
  induction L with
  | nil => intro _ _ _; simp
  | cons a L ihL =>
    intro hnd hg hhead
    rw [List.flatMap_cons]
    refine List.Nodup.append (hg a) (ihL (List.Nodup.of_cons hnd) hg hhead) ?_
    intro v hva hvL
    obtain ⟨e0, he0, hve0⟩ := List.mem_flatMap.mp hvL
    have h1 := hhead a v hva
    have h2 := hhead e0 v hve0
    rw [h1] at h2
    have : a = e0 := by injection h2
    subst this
    exact (List.nodup_cons.mp hnd).1 he0

theorem nodup_boundedVecs (b : ℕ) : ∀ (m s : ℕ), (boundedVecs b m s).Nodup := by
  intro m
  induction m with
  | zero =>
    intro s
    rw [boundedVecs]
    split <;> simp
  | succ m ih =>
    intro s
    rw [boundedVecs]
    refine nodup_flatMap_lists _ _ (List.nodup_reverse.mpr (List.nodup_range _))
      (fun e0 => ?_) ?_
    · split
      · exact List.Nodup.map (fun v w hEq => by injection hEq) (ih _)
      · exact List.nodup_nil
    · intro e0 v hv
      split at hv
      · obtain ⟨w, hw, hvw⟩ := List.mem_map.mp hv
        rw [← hvw]
        rfl
      · exact absurd hv (List.not_mem_nil v)

theorem sum_map_range (g : ℕ → ℕ) : ∀ n : ℕ,
    ((List.range n).map g).sum = ∑ i ∈ Finset.range n, g i
  | 0 => by simp
  | n + 1 => by
    rw [List.range_succ, List.map_append, List.sum_append, sum_map_range g n,
      Finset.sum_range_succ]
    simp

/-- Hockey-stick identity. -/
theorem sum_choose_diag (m : ℕ) : ∀ s : ℕ,
    (∑ t ∈ Finset.range (s + 1), (m + t).choose t) = (m + s + 1).choose s
  | 0 => by simp
  | s + 1 => by
    rw [Finset.sum_range_succ, sum_choose_diag m s]
    have heq : m + (s + 1) + 1 = (m + s + 1) + 1 := by ring
    rw [heq, Nat.choose_succ_succ' (m + s + 1) s]
    rfl

/-- Size of a class of the graded enumeration, when the entry bound is
inactive (`s ≤ b`): the stars-and-bars count. -/
theorem length_boundedVecs_le (b : ℕ) : ∀ (m s : ℕ), s ≤ b →
    (boundedVecs b (m + 1) s).length = (m + s).choose s := by
  intro m
  induction m with
  | zero =>
    intro s hs
    rw [boundedVecs, List.length_flatMap]
    have heach : ∀ e0 ∈ List.range (b + 1),
        (List.length ∘ fun e0 => if e0 ≤ s then
          (boundedVecs b 0 (s - e0)).map (fun v => e0 :: v) else []) e0 =
        (if e0 = s then 1 else 0) := by
      intro e0 _
      simp only [Function.comp_apply]
      by_cases he0s : e0 ≤ s
      · rw [if_pos he0s, boundedVecs]
        rcases Nat.eq_or_lt_of_le he0s with rfl | hlt
        · rw [if_pos (by omega), if_pos rfl]
          simp
        · rw [if_neg (by omega), if_neg (by omega)]
          rfl
      · rw [if_neg he0s, if_neg (by omega)]
        rfl
    rw [List.map_reverse, List.sum_reverse, List.map_congr_left heach, sum_map_range,
      Finset.sum_ite_eq' (Finset.range (b + 1)) s (fun _ => 1),
      if_pos (Finset.mem_range.mpr (by omega))]
    simp
  | succ m ihm =>
    intro s hs
    rw [boundedVecs, List.length_flatMap]
    have heach : ∀ e0 ∈ List.range (b + 1),
        (List.length ∘ fun e0 => if e0 ≤ s then
          (boundedVecs b (m + 1) (s - e0)).map (fun v => e0 :: v) else []) e0 =
        (if e0 ≤ s then (m + (s - e0)).choose (s - e0) else 0) := by
      intro e0 _
      simp only [Function.comp_apply]
      by_cases he0s : e0 ≤ s
      · rw [if_pos he0s, if_pos he0s, List.length_map, ihm (s - e0) (by omega)]
      · rw [if_neg he0s, if_neg he0s]
        rfl
    rw [List.map_reverse, List.sum_reverse, List.map_congr_left heach, sum_map_range]
    have hsub : ∑ e0 ∈ Finset.range (b + 1),
        (if e0 ≤ s then (m + (s - e0)).choose (s - e0) else 0) =
        ∑ e0 ∈ Finset.range (s + 1), (m + (s - e0)).choose (s - e0) := by
      rw [← Finset.sum_subset (Finset.range_subset.mpr (by omega : s + 1 ≤ b + 1))
        (fun x _ hx => by rw [if_neg (by rw [Finset.mem_range] at hx; omega)])]
      refine Finset.sum_congr rfl (fun x hx => ?_)
      rw [Finset.mem_range] at hx
      rw [if_pos (by omega)]
    rw [hsub]
    have hreflect : ∑ e0 ∈ Finset.range (s + 1), (m + (s - e0)).choose (s - e0) =
        ∑ t ∈ Finset.range (s + 1), (m + t).choose t := by
      have hrefl := Finset.sum_range_reflect (fun t => (m + t).choose t) (s + 1)
      rw [← hrefl]
      exact Finset.sum_congr rfl (fun x hx => rfl)
    rw [hreflect, sum_choose_diag]
    congr 1
    ring

/-- Size of a class of the graded enumeration in the binary case. -/
theorem length_boundedVecs_one : ∀ (m s : ℕ), (boundedVecs 1 m s).length = m.choose s := by
  intro m
  induction m with
  | zero =>
    intro s
    rw [boundedVecs]
    rcases s with - | s
    · simp
    · rw [if_neg (by omega), Nat.choose_eq_zero_of_lt (by omega)]
      rfl
  | succ m ihm =>
    intro s
    rw [show boundedVecs 1 (m + 1) s =
      ((List.range 2).reverse).flatMap (fun e0 => if e0 ≤ s then
        (boundedVecs 1 m (s - e0)).map (fun v => e0 :: v) else []) from rfl]
    rw [show (List.range 2).reverse = [1, 0] from rfl]
    rw [List.flatMap_cons, List.flatMap_cons, List.flatMap_nil, List.append_nil,
      List.length_append]
    rcases s with - | s
    · rw [if_neg (by omega), if_pos (by omega)]
      simp [ihm]
    · rw [if_pos (by omega), if_pos (by omega)]
      simp only [List.length_map, List.length_nil, ihm]
      rw [Nat.choose_succ_succ (m) (s)]
      simp [Nat.add_comm]

theorem sum_le_length_mul {b : ℕ} : ∀ v : List ℕ, (∀ x ∈ v, x ≤ b) →
    v.sum ≤ v.length * b
  | [], _ => by simp
  | x :: w, hb => by
    rw [List.sum_cons, List.length_cons]
    have hx := hb x (List.mem_cons_self x w)
    have hw := sum_le_length_mul w (fun y hy => hb y (List.mem_cons_of_mem x hy))
    calc x + w.sum ≤ b + w.length * b := by omega
      _ = (w.length + 1) * b := by ring

/-- Classes beyond the maximal total degree `m * b` are empty. -/
theorem boundedVecs_empty {b m s : ℕ} (h : m * b < s) : boundedVecs b m s = [] := by
  rw [List.eq_nil_iff_forall_not_mem]
  intro v hv
  obtain ⟨hlen, hb, hsum⟩ := mem_boundedVecs.mp hv
  have hle : v.sum ≤ m * b := by
    calc v.sum ≤ v.length * b := sum_le_length_mul v hb
      _ = m * b := by rw [hlen]
  omega

theorem flatMap_range_prefix {α : Type} (f : ℕ → List α) {n N : ℕ} (h : n ≤ N) :
    ((List.range N).flatMap f).take (((List.range n).map (List.length ∘ f)).sum) =
      (List.range n).flatMap f := by
  have hsplit : List.range N = List.range n ++ (List.range (N - n)).map (n + ·) := by
    conv_lhs => rw [show N = n + (N - n) from by omega]
    exact List.range_add n (N - n)
  rw [hsplit, List.flatMap_append]
  have hlen : ((List.range n).flatMap f).length =
      ((List.range n).map (List.length ∘ f)).sum := List.length_flatMap _ _
  rw [← hlen, List.take_left]

/-- The dimension stored by the constructor equals the total size of the
graded classes of degree at most `r`. -/
theorem sum_lengths_eq_dim (q r m : ℕ) (hq : 2 ≤ q) (hval : rmValid q r m) :
    ((List.range (r + 1)).map (List.length ∘ fun s => boundedVecs (q - 1) m s)).sum =
      rmDimension q r m := by
  have hmr : ((List.range (r + 1)).map (List.length ∘ fun s => boundedVecs (q - 1) m s)).sum =
      ∑ s ∈ Finset.range (r + 1), (boundedVecs (q - 1) m s).length :=
    sum_map_range _ _
  rw [hmr]
  by_cases h2 : q = 2
  · subst h2
    rw [rmDimension, if_pos rfl, binomialSum_eq]
    have hsum : (∑ i ∈ Finset.range (r + 1), ((m.choose i : ℤ))) =
        ((∑ i ∈ Finset.range (r + 1), m.choose i : ℕ) : ℤ) := by
      push_cast
      rfl
    rw [hsum, Int.toNat_natCast]
    exact Finset.sum_congr rfl (fun s _ => length_boundedVecs_one m s)
  · have hr : r ≤ q - 1 := by
      rw [rmValid, if_neg h2] at hval
      omega
    rw [rmDimension, if_neg h2]
    cases m with
    | zero =>
      have heach : ∀ s ∈ Finset.range (r + 1), (boundedVecs (q - 1) 0 s).length =
          (if s = 0 then 1 else 0) := by
        intro s _
        rw [boundedVecs]
        split
        · rfl
        · rfl
      rw [Finset.sum_congr rfl heach,
        Finset.sum_ite_eq' (Finset.range (r + 1)) 0 (fun _ => 1),
        if_pos (Finset.mem_range.mpr (by omega))]
      rw [Nat.zero_add, Nat.choose_self]
    | succ m2 =>
      have heach : ∀ s ∈ Finset.range (r + 1), (boundedVecs (q - 1) (m2 + 1) s).length =
          (m2 + s).choose s := by
        intro s hs
        rw [Finset.mem_range] at hs
        exact length_boundedVecs_le (q - 1) m2 s (by omega)
      rw [Finset.sum_congr rfl heach, sum_choose_diag m2 r]
      congr 1
      omega

/-- The truncation of the graded enumeration to the first `dimension()`
entries is exactly the concatenation of the classes of size `0, 1, ..., r`. -/
theorem basisExponents_eq (q r m : ℕ) (hq : 2 ≤ q) (hval : rmValid q r m) :
    basisExponents q r m =
      (List.range (r + 1)).flatMap (fun s => boundedVecs (q - 1) m s) := by
  rw [basisExponents, gradedExponents, ← sum_lengths_eq_dim q r m hq hval]
  rcases Nat.le_total (r + 1) (m * (q - 1) + 1) with hcase | hcase
  · exact flatMap_range_prefix _ hcase
  · have hext : (List.range (r + 1)).flatMap (fun s => boundedVecs (q - 1) m s) =
        (List.range (m * (q - 1) + 1)).flatMap (fun s => boundedVecs (q - 1) m s) := by
      rw [show r + 1 = (m * (q - 1) + 1) + (r - m * (q - 1)) from by omega,
        List.range_add, List.flatMap_append]
      have hnil : ((List.range (r - m * (q - 1))).map ((m * (q - 1) + 1) + ·)).flatMap
          (fun s => boundedVecs (q - 1) m s) = [] := by
        rw [List.flatMap_eq_nil_iff]
        intro s hs
        obtain ⟨x, -, rfl⟩ := List.mem_map.mp hs
        exact boundedVecs_empty (by omega)
      rw [hnil, List.append_nil]
    rw [hext]
    have hle : ((List.range (m * (q - 1) + 1)).map
          (List.length ∘ fun s => boundedVecs (q - 1) m s)).sum ≤
        ((List.range (r + 1)).map
          (List.length ∘ fun s => boundedVecs (q - 1) m s)).sum := by
      have hsplit2 : List.range (r + 1) = List.range (m * (q - 1) + 1) ++
          (List.range (r - m * (q - 1))).map ((m * (q - 1) + 1) + ·) := by
        conv_lhs => rw [show r + 1 = (m * (q - 1) + 1) + (r - m * (q - 1)) from by omega]
        exact List.range_add _ _
      rw [hsplit2, List.map_append, List.sum_append]
      exact Nat.le_add_right _ _
    refine List.take_of_length_le ?_
    rw [List.length_flatMap]
    exact hle

theorem basisExponents_length (q r m : ℕ) (hq : 2 ≤ q) (hval : rmValid q r m) :
    (basisExponents q r m).length = rmDimension q r m := by
  rw [basisExponents_eq q r m hq hval, List.length_flatMap,
    sum_lengths_eq_dim q r m hq hval]

theorem nodup_flatMap_key {α : Type} (f : ℕ → List (List α)) (key : List α → ℕ) :
    ∀ (L : List ℕ), L.Nodup → (∀ s, (f s).Nodup) →
      (∀ s v, v ∈ f s → key v = s) → (L.flatMap f).Nodup := by
  intro L
  induction L with
  | nil => intro _ _ _; simp
  | cons a L ihL =>
    intro hnd hg hkey
    rw [List.flatMap_cons]
    refine List.Nodup.append (hg a) (ihL (List.Nodup.of_cons hnd) hg hkey) ?_
    intro v hva hvL
    obtain ⟨s, hs, hvs⟩ := List.mem_flatMap.mp hvL
    have h1 := hkey a v hva
    have h2 := hkey s v hvs
    rw [h1] at h2
    subst h2
    exact (List.nodup_cons.mp hnd).1 hs

theorem le_sum_of_mem_natlist : ∀ {v : List ℕ} {x : ℕ}, x ∈ v → x ≤ v.sum := by
  intro v
  induction v with
  | nil => intro x h; exact absurd h (List.not_mem_nil x)
  | cons a w ihw =>
    intro x h
    rw [List.sum_cons]
    rcases List.mem_cons.mp h with rfl | h2
    · omega
    · have := ihw h2
      omega

/-- Claim C6: the first `dimension()` entries of the graded submultiset
enumeration are exactly `dimension()` pairwise distinct exponent vectors with
every entry in `[0, min r (q-1)]` and total degree at most `r`, and they
exhaust the monomials of total degree at most `r`. -/
theorem c6_monomial_basis (q r m : ℕ) (hq : 2 ≤ q) (hval : rmValid q r m) :
    (basisExponents q r m).length = rmDimension q r m ∧
    (basisExponents q r m).Nodup ∧
    (∀ v ∈ basisExponents q r m,
      v.length = m ∧ (∀ x ∈ v, x ≤ min r (q - 1)) ∧ v.sum ≤ r) ∧
    (∀ v : List ℕ, v.length = m → (∀ x ∈ v, x ≤ q - 1) → v.sum ≤ r →
      v ∈ basisExponents q r m) := by
  refine ⟨basisExponents_length q r m hq hval, ?_, ?_, ?_⟩
  · rw [basisExponents_eq q r m hq hval]
    exact nodup_flatMap_key _ List.sum _ (List.nodup_range _)
      (fun s => nodup_boundedVecs (q - 1) m s)
      (fun s v hv => (mem_boundedVecs.mp hv).2.2)
  · intro v hv
    rw [basisExponents_eq q r m hq hval] at hv
    obtain ⟨s, hs, hvs⟩ := List.mem_flatMap.mp hv
    rw [List.mem_range] at hs
    obtain ⟨hlen, hb, hsum⟩ := mem_boundedVecs.mp hvs
    refine ⟨hlen, fun x hx => ?_, by omega⟩
    refine le_min ?_ (hb x hx)
    have := le_sum_of_mem_natlist hx
    omega
  · intro v hlen hb hsum
    rw [basisExponents_eq q r m hq hval]
    exact List.mem_flatMap.mpr ⟨v.sum, List.mem_range.mpr (by omega),
      mem_boundedVecs.mpr ⟨hlen, hb, rfl⟩⟩

theorem c6_monomial_basis_witness :
    (basisExponents 3 2 2).length = rmDimension 3 2 2 :=
  (c6_monomial_basis 3 2 2 (by norm_num) (by decide)).1

/-- Claim C7: the generator matrix has `dimension()` rows of length `q^m`,
and entry `(j, i)` is the value of the `j`-th basis monomial at the `i`-th
domain point: the product over the variables `k` of the `k`-th coordinate of
point `i` raised to the `k`-th exponent of basis monomial `j`. -/
theorem c7_generator_matrix (q r m : ℕ) (hq : 2 ≤ q) (hval : rmValid q r m) :
    (generatorMatrix q r m).length = rmDimension q r m ∧
    (∀ row ∈ generatorMatrix q r m, row.length = q ^ m) ∧
    (∀ jr i : ℕ, jr < rmDimension q r m → i < q ^ m →
      ((generatorMatrix q r m).getD jr []).getD i 0 =
        ∏ k : Fin m, ((fieldList q).getD ((i / q ^ ((k : ℕ))) % q) 0) ^
          (((basisExponents q r m).getD jr []).getD ((k : ℕ)) 0)) := by
  refine ⟨?_, ?_, ?_⟩
  · rw [generatorMatrix, List.length_map, basisExponents_length q r m hq hval]
  · intro row hrow
    obtain ⟨e, he, hrow2⟩ := List.mem_map.mp hrow
    rw [← hrow2, List.length_map, length_tuples, length_fieldList]
  · intro jr i hjr hi
    have hjr2 : jr < (basisExponents q r m).length := by
      rw [basisExponents_length q r m hq hval]
      exact hjr
    rw [generatorMatrix, getD_map_of_lt _ _ hjr2 _ [],
      getD_map_of_lt _ _ (by rw [length_tuples, length_fieldList]; exact hi) _ (fun _ => 0),
      prodPow]
    refine Finset.prod_congr rfl (fun k _ => ?_)
    congr 1
    have hc := getD_tuples_coord (fieldList q) 0 (by rw [length_fieldList]; omega) m i
      (by rw [length_fieldList]; exact hi) (fun _ => 0) k
    rw [length_fieldList] at hc
    exact hc

theorem c7_generator_matrix_witness :
    ((generatorMatrix 3 2 2).getD 1 []).getD 2 0 =
      ∏ k : Fin 2, ((fieldList 3).getD ((2 / 3 ^ ((k : ℕ))) % 3) 0) ^
        (((basisExponents 3 2 2).getD 1 []).getD ((k : ℕ)) 0) :=
  (c7_generator_matrix 3 2 2 (by norm_num) (by decide)).2.2 1 2 (by decide) (by decide)

theorem c5_validation_amended_witness :
    isError (qaryCheck 3 (PyNum.int 5) (PyNum.int 2)) = true :=
  (c5_validation_amended.1 3 (PyNum.int 5) (PyNum.int 2)).mpr
    (Or.inr (Or.inr ⟨5, rfl, by norm_num⟩))
